import Mathlib

/-!
# Array table (arraytable.c) and array stack

A shallow embedding of the fixed-capacity key/value table of `src/arraytable.c`
and proofs of its contract, followed by the stack that the test programs
`src/stack_test_v2.c` and `src/int_stack_test_v2.c` exercise.

Conventions of the embedding

* C `int` indices and counters are `Int`; no value ever leaves `0 .. MAXSIZE + 1`
  in a defined run, so machine overflow plays no part.
* A `void *` value is `Option V`, where `none` is `NULL`.  Keys are an arbitrary
  type `K` on which the comparison function is total.
* Each occupied slot of the array owns its own `table_entry` (one `calloc` per
  appended entry, never shared), so a slot holds the entry by value and
  `e->key = ...` is an update of that slot.
* Every operation returns `Except Fault _`; an error is a run that leaves defined
  behaviour (an index outside the array, a field access through `NULL`).
* Loops are structurally recursive on a bound computed from the array limits;
  `Fault.fuel` would signal that the bound was too small and is shown never to occur.
-/

namespace ArrayTable

/-- Capacity of the table: `#define MAXSIZE 80000`. -/
def MAXSIZE : Int := 80000

/-- Ways in which a call leaves defined behaviour. -/
inductive Fault where
  /-- An `array_1d` access at an index outside `low .. high`. -/
  | out_of_bounds (i : Int)
  /-- A field access through a `NULL` entry pointer. -/
  | null_deref
  /-- The iteration bound of the model was exhausted. -/
  | fuel
  deriving DecidableEq, Repr

/-- Modelled from the spec: the fixed-capacity array of entry slots. The header
`array_1d.h` and its implementation are not among the sources; the array has the index
range `low .. high` it was created with, every slot holds a pointer (`none` is `NULL`),
and an access outside the range is not defined. -/
structure array_1d (α : Type) where
  low : Int
  high : Int
  values : Int → Option α

/-- Modelled from the spec: `array_1d_create(lo, hi, NULL)`, all slots `NULL`. -/
def array_1d_create {α : Type} (lo hi : Int) : array_1d α :=
  { low := lo, high := hi, values := fun _ => none }

/-- Modelled from the spec: `array_1d_inspect_value(a, i)`. -/
def array_1d_inspect_value {α : Type} (a : array_1d α) (i : Int) : Except Fault (Option α) :=
  if a.low ≤ i ∧ i ≤ a.high then .ok (a.values i) else .error (.out_of_bounds i)

/-- Modelled from the spec: `array_1d_set_value(a, v, i)` for an array created without a
kill function. -/
def array_1d_set_value {α : Type} (a : array_1d α) (v : Option α) (i : Int) :
    Except Fault (array_1d α) :=
  if a.low ≤ i ∧ i ≤ a.high then .ok { a with values := Function.update a.values i v }
  else .error (.out_of_bounds i)

/-- The `struct table_entry`: a key pointer and a value pointer. -/
structure table_entry (K V : Type) where
  key : K
  value : Option V

/-- A call made to one of the two kill functions. -/
inductive kill_call (K V : Type) where
  | key (k : K)
  | value (v : Option V)

/-- The `struct table`. The kill functions are recorded by whether they are non-`NULL`;
their effect lies outside the table, so each call is logged in `killed` (newest first). -/
structure table (K V : Type) where
  entries : array_1d (table_entry K V)
  key_cmp_func : K → K → Int
  key_kill_func : Bool
  value_kill_func : Bool
  first_free_pos : Int
  killed : List (kill_call K V)

variable {K V : Type}

/-- The function `table_entry_create`. -/
def table_entry_create (key : K) (value : Option V) : table_entry K V :=
  { key := key, value := value }

/-- The function `table_empty`. -/
def table_empty (key_cmp_func : K → K → Int) (key_kill_func value_kill_func : Bool) :
    table K V :=
  { entries := array_1d_create 0 (MAXSIZE - 1)
    first_free_pos := 0
    key_cmp_func := key_cmp_func
    key_kill_func := key_kill_func
    value_kill_func := value_kill_func
    killed := [] }

/-- The function `table_is_empty`. -/
def table_is_empty (t : table K V) : Bool :=
  t.first_free_pos == 0

/-- The two guarded kill calls `if (t->key_kill_func != NULL) t->key_kill_func(e->key);`
and `if (t->value_kill_func != NULL) t->value_kill_func(e->value);`. -/
def kill_pair (t : table K V) (e : table_entry K V) : table K V :=
  let t1 := if t.key_kill_func then { t with killed := .key e.key :: t.killed } else t
  if t1.value_kill_func then { t1 with killed := .value e.value :: t1.killed } else t1

/-- The assignments `e->key = key; e->value = value;` through the entry pointer held in
slot `i`. -/
def entry_assign (t : table K V) (i : Int) (key : K) (value : Option V) : table K V :=
  { t with entries :=
      { t.entries with values := Function.update t.entries.values i (some ⟨key, value⟩) } }

/-- Number of iterations after which a scan from index 0 has left the array. -/
def loop_bound {α : Type} (a : array_1d α) : Nat :=
  (a.high + 1).toNat + 1

/-- Lines 167-178 of `table_insert`: the code after the search loop, reached with the
index `i` of the first `NULL` slot. -/
def table_insert_append (t : table K V) (key : K) (value : Option V) (i : Int) :
    Except Fault (table K V) :=
  let t1 := { t with first_free_pos := t.first_free_pos + 1 }
  if t1.first_free_pos > MAXSIZE then .ok t1
  else
    match array_1d_set_value t1.entries (some (table_entry_create key value)) i with
    | .error f => .error f
    | .ok a => .ok { t1 with entries := a }

/-- The search loop of `table_insert` from index `i`, followed by the rest of the
function. -/
def table_insert_loop (t : table K V) (key : K) (value : Option V) :
    Nat → Int → Except Fault (table K V)
  | 0, _ => .error .fuel
  | fuel + 1, i =>
    match array_1d_inspect_value t.entries i with
    | .error f => .error f
    | .ok none => table_insert_append t key value i
    | .ok (some e) =>
      if t.key_cmp_func e.key key = 0 then
        .ok (entry_assign (kill_pair t e) i key value)
      else table_insert_loop t key value fuel (i + 1)

/-- The function `table_insert`. -/
def table_insert (t : table K V) (key : K) (value : Option V) : Except Fault (table K V) :=
  table_insert_loop t key value (loop_bound t.entries) 0

/-- The search loop of `table_lookup` from index `i`. -/
def table_lookup_loop (t : table K V) (key : K) : Nat → Int → Except Fault (Option V)
  | 0, _ => .error .fuel
  | fuel + 1, i =>
    match array_1d_inspect_value t.entries i with
    | .error f => .error f
    | .ok none => .ok none
    | .ok (some e) =>
      if t.key_cmp_func e.key key = 0 then .ok e.value
      else table_lookup_loop t key fuel (i + 1)

/-- The function `table_lookup`; `.ok none` is the `NULL` return. -/
def table_lookup (t : table K V) (key : K) : Except Fault (Option V) :=
  table_lookup_loop t key (loop_bound t.entries) 0

/-- The function `table_choose_key`. -/
def table_choose_key (t : table K V) : Except Fault K :=
  match array_1d_inspect_value t.entries (t.first_free_pos - 1) with
  | .error f => .error f
  | .ok none => .error .null_deref
  | .ok (some e) => .ok e.key

/-- Lines 255-278 of `table_remove`: the body of the match branch, for the entry `e`
found in slot `i`. -/
def table_remove_entry (t : table K V) (i : Int) (e : table_entry K V) :
    Except Fault (table K V) :=
  let t1 := kill_pair t e
  match array_1d_inspect_value t1.entries (t1.first_free_pos - 1) with
  | .error f => .error f
  | .ok none => .error .null_deref
  | .ok (some last_e) =>
    let t2 := entry_assign t1 i last_e.key last_e.value
    match array_1d_set_value t2.entries none (t2.first_free_pos - 1) with
    | .error f => .error f
    | .ok a => .ok { t2 with entries := a, first_free_pos := t2.first_free_pos - 1 }

/-- The search loop of `table_remove` from index `i`. The loop condition reads slot `i`
first and tests `i < MAXSIZE` second. -/
def table_remove_loop (t : table K V) (key : K) : Nat → Int → Except Fault (table K V)
  | 0, _ => .error .fuel
  | fuel + 1, i =>
    match array_1d_inspect_value t.entries i with
    | .error f => .error f
    | .ok none => .ok t
    | .ok (some e) =>
      if i < MAXSIZE then
        if t.key_cmp_func e.key key = 0 then table_remove_entry t i e
        else table_remove_loop t key fuel (i + 1)
      else .ok t

/-- The function `table_remove`. -/
def table_remove (t : table K V) (key : K) : Except Fault (table K V) :=
  table_remove_loop t key (loop_bound t.entries) 0

/-! ## Predicates of the contract -/

/-- Slot `i` of the table is occupied and holds the entry `e`. -/
def holds (t : table K V) (i : Int) (e : table_entry K V) : Prop :=
  0 ≤ i ∧ i < MAXSIZE ∧ t.entries.values i = some e

/-- Some stored key compares equal to `k`. -/
def key_stored (t : table K V) (k : K) : Prop :=
  ∃ i e, holds t i e ∧ t.key_cmp_func e.key k = 0

/-- Slot `i` holds the lowest-index entry whose key compares equal to `k`. -/
def first_match (t : table K V) (k : K) (i : Int) (e : table_entry K V) : Prop :=
  holds t i e ∧ t.key_cmp_func e.key k = 0 ∧
    ∀ j e', holds t j e' → j < i → t.key_cmp_func e'.key k ≠ 0

/-- The contiguity predicate: the array has the slots `0 .. MAXSIZE - 1`, slot `i` is
occupied if and only if `i < first_free_pos`, and `first_free_pos` is a count between
`0` and `MAXSIZE`. -/
def well_formed (t : table K V) : Prop :=
  t.entries.low = 0 ∧ t.entries.high = MAXSIZE - 1 ∧
  0 ≤ t.first_free_pos ∧ t.first_free_pos ≤ MAXSIZE ∧
  ∀ i, 0 ≤ i → i < MAXSIZE → ((t.entries.values i).isSome ↔ i < t.first_free_pos)

/-- The relation "compares equal" of `cmp` is an equivalence relation. -/
def cmp_equivalence (cmp : K → K → Int) : Prop :=
  (∀ a, cmp a a = 0) ∧ (∀ a b, cmp a b = 0 → cmp b a = 0) ∧
  (∀ a b c, cmp a b = 0 → cmp b c = 0 → cmp a c = 0)

/-- Tables produced from `table_empty` by calls of `table_insert` and `table_remove`,
where `table_insert` is never called on a table that already holds `MAXSIZE` entries. -/
inductive reachable (cmp : K → K → Int) (kk vk : Bool) : table K V → Prop where
  | empty : reachable cmp kk vk (table_empty cmp kk vk)
  | insert {t t' : table K V} (k : K) (v : Option V) :
      reachable cmp kk vk t → t.first_free_pos < MAXSIZE →
      table_insert t k v = .ok t' → reachable cmp kk vk t'
  | remove {t t' : table K V} (k : K) :
      reachable cmp kk vk t → table_remove t k = .ok t' → reachable cmp kk vk t'

/-! ## The common search -/

/-- Outcome of a search over the slots: a fault, the first `NULL` slot, or the first
entry that satisfies the test. -/
inductive scan_result (α : Type) where
  | fault (f : Fault)
  | null (i : Int)
  | hit (i : Int) (e : α)

/-- The search all three loops perform: walk the slots upward from `i` until a `NULL`
slot or an entry satisfying `p`. -/
def scan {α : Type} (a : array_1d α) (p : α → Bool) : Nat → Int → scan_result α
  | 0, _ => .fault .fuel
  | fuel + 1, i =>
    match array_1d_inspect_value a i with
    | .error f => .fault f
    | .ok none => .null i
    | .ok (some e) => if p e then .hit i e else scan a p fuel (i + 1)

/-- The test "the key of the entry compares equal to `k`". -/
def key_test (t : table K V) (k : K) : table_entry K V → Bool :=
  fun e => decide (t.key_cmp_func e.key k = 0)

/-- The table after `table_insert` appended the pair in the first free slot. -/
def appended (t : table K V) (k : K) (v : Option V) : table K V :=
  { t with
    first_free_pos := t.first_free_pos + 1
    entries := { t.entries with
      values := Function.update t.entries.values t.first_free_pos (some ⟨k, v⟩) } }

/-- The table after `table_remove` moved the last entry `last` into slot `i`, which held
`e`, and cleared the last slot. -/
def removed (t : table K V) (i : Int) (e last : table_entry K V) : table K V :=
  { kill_pair t e with
    first_free_pos := t.first_free_pos - 1
    entries := { t.entries with
      values := Function.update
        (Function.update t.entries.values i (some ⟨last.key, last.value⟩))
        (t.first_free_pos - 1) none } }

/-- No two distinct occupied slots hold keys that compare equal. -/
def unique_keys (t : table K V) : Prop :=
  ∀ i j e e', holds t i e → holds t j e' → t.key_cmp_func e.key e'.key = 0 → i = j

/-- The deconstruction loop of the documentation of `table_choose_key`:
`n` times, remove the key that `table_choose_key` returns. -/
def deconstruct : Nat → table K V → Except Fault (table K V)
  | 0, t => .ok t
  | n + 1, t =>
    match table_choose_key t with
    | .error f => .error f
    | .ok k =>
      match table_remove t k with
      | .error f => .error f
      | .ok t' => deconstruct n t'

/-! ## Concrete tables -/

/-- Three-way comparison of integers, the usual comparison function for `int` keys. -/
def cmp_int (a b : Int) : Int := a - b

/-- A table with the two pairs `(5, 50)` and `(7, 70)`, no kill functions. -/
def demo_table : table Int Int :=
  { entries :=
      { low := 0
        high := MAXSIZE - 1
        values := fun i =>
          if i = 0 then some ⟨5, some 50⟩ else if i = 1 then some ⟨7, some 70⟩ else none }
    key_cmp_func := cmp_int
    key_kill_func := false
    value_kill_func := false
    first_free_pos := 2
    killed := [] }

/-- A comparison function that is not reflexive: it reports equality only for the
pair `(1, 2)`. -/
def cmp_skew (a b : Int) : Int := if a = 1 ∧ b = 2 then 0 else 1

/-- A table with the two pairs `(1, 10)` and `(1, 11)` under `cmp_skew`. -/
def skew_table : table Int Int :=
  { entries :=
      { low := 0
        high := MAXSIZE - 1
        values := fun i =>
          if i = 0 then some ⟨1, some 10⟩ else if i = 1 then some ⟨1, some 11⟩ else none }
    key_cmp_func := cmp_skew
    key_kill_func := false
    value_kill_func := false
    first_free_pos := 2
    killed := [] }

/-- The table holding the `n` pairs `(0, 0), (1, 1), ..., (n - 1, n - 1)` in this order. -/
def filled (n : Nat) : table Int Int :=
  { entries :=
      { low := 0
        high := MAXSIZE - 1
        values := fun i => if 0 ≤ i ∧ i < n then some ⟨i, some i⟩ else none }
    key_cmp_func := cmp_int
    key_kill_func := false
    value_kill_func := false
    first_free_pos := n
    killed := [] }

/-- A table at capacity: `MAXSIZE` pairs with the keys `0 .. MAXSIZE - 1`. -/
def full_table : table Int Int := filled 80000

end ArrayTable

namespace ArrayStack

/-! ## The array stack

The headers `stack.h` and `int_stack.h` and their implementations are not among the
sources; the sources hold only the test programs that call them. The stack is therefore
modelled from the specification. The payload type `α` is `Int` for the value-based
stack of `int_stack_test_v2.c` and a pointer type for the boxed stack of
`stack_test_v2.c`. -/

/-- Modelled from the spec: the stack, "a fixed-capacity array of opaque payload
pointers, a count, and an optional value destructor". The stack implementation is what
is missing; the capacity, a constant of that implementation, is a field set at
creation. A slot that was never written is `none`. -/
structure stack (α : Type) where
  capacity : Nat
  elements : Nat → Option α
  count : Nat
  kill_function : Bool

variable {α : Type}

/-- Modelled from the spec: `stack_empty`, the stack with count zero. The missing
implementation fixes the capacity; the int stack takes no destructor
(`kill_function` false). -/
def stack_empty (capacity : Nat) (kill_function : Bool) : stack α :=
  { capacity := capacity, elements := fun _ => none, count := 0,
    kill_function := kill_function }

/-- Modelled from the spec: `stack_is_empty`, true when the count is zero. -/
def stack_is_empty (s : stack α) : Bool :=
  s.count == 0

/-- Modelled from the spec: `stack_push` stores the value in the first free slot of the
array and increments the count; "capacity overflow is silently ignored", so a push on a
full stack returns the stack unchanged. -/
def stack_push (s : stack α) (v : α) : stack α :=
  if s.count < s.capacity then
    { s with elements := Function.update s.elements s.count (some v), count := s.count + 1 }
  else s

/-- Modelled from the spec: `stack_pop` removes the most recently pushed element;
"pop on empty is undefined/guarded by caller", so the result on an empty stack is
`none`. -/
def stack_pop (s : stack α) : Option (stack α) :=
  if s.count = 0 then none else some { s with count := s.count - 1 }

/-- Modelled from the spec: `stack_top` returns the most recently pushed element still
on the stack, the one in slot `count - 1`; on an empty stack there is no such slot and
the result is `none`. -/
def stack_top (s : stack α) : Option α :=
  if s.count = 0 then none else s.elements (s.count - 1)

/-- The stack of the tests after `stack_push(s, 5); stack_push(s, 4)`, with a capacity
of two: a full stack. -/
def full_stack : stack Int :=
  stack_push (stack_push (stack_empty 2 false) 5) 4

/-- A stack with the single element `5` and a capacity of two: one slot is free. -/
def one_free_stack : stack Int :=
  stack_push (stack_empty 2 false) 5

end ArrayStack

namespace ArrayTable

variable {K V : Type}

theorem table_lookup_loop_eq_scan (t : table K V) (k : K) (fuel : Nat) (i : Int) :
    table_lookup_loop t k fuel i =
      match scan t.entries (key_test t k) fuel i with
      | .fault f => .error f
      | .null _ => .ok none
      | .hit _ e => .ok e.value := by
  induction fuel generalizing i with
  | zero => rfl
  | succ n ih =>
    simp only [table_lookup_loop, scan]
    cases h : array_1d_inspect_value t.entries i with
    | error f => rfl
    | ok o =>
      cases o with
      | none => rfl
      | some e =>
        by_cases hc : t.key_cmp_func e.key k = 0
        · simp [key_test, hc]
        · simp [key_test, hc, ih]

theorem table_insert_loop_eq_scan (t : table K V) (k : K) (v : Option V) (fuel : Nat)
    (i : Int) :
    table_insert_loop t k v fuel i =
      match scan t.entries (key_test t k) fuel i with
      | .fault f => .error f
      | .null j => table_insert_append t k v j
      | .hit j e => .ok (entry_assign (kill_pair t e) j k v) := by
  induction fuel generalizing i with
  | zero => rfl
  | succ n ih =>
    simp only [table_insert_loop, scan]
    cases h : array_1d_inspect_value t.entries i with
    | error f => rfl
    | ok o =>
      cases o with
      | none => rfl
      | some e =>
        by_cases hc : t.key_cmp_func e.key k = 0
        · simp [key_test, hc]
        · simp [key_test, hc, ih]

theorem inspect_ok_le_high {α : Type} {a : array_1d α} {i : Int} {o : Option α}
    (h : array_1d_inspect_value a i = .ok o) : a.low ≤ i ∧ i ≤ a.high ∧ a.values i = o := by
  unfold array_1d_inspect_value at h
  split at h
  · rename_i hb
    injection h with h
    exact ⟨hb.1, hb.2, h⟩
  · cases h

theorem table_remove_loop_eq_scan (t : table K V) (k : K) (hhigh : t.entries.high < MAXSIZE)
    (fuel : Nat) (i : Int) :
    table_remove_loop t k fuel i =
      match scan t.entries (key_test t k) fuel i with
      | .fault f => .error f
      | .null _ => .ok t
      | .hit j e => table_remove_entry t j e := by
  induction fuel generalizing i with
  | zero => rfl
  | succ n ih =>
    simp only [table_remove_loop, scan]
    cases h : array_1d_inspect_value t.entries i with
    | error f => rfl
    | ok o =>
      cases o with
      | none => rfl
      | some e =>
        have hi : i < MAXSIZE := by
          have := (inspect_ok_le_high h).2.1
          omega
        by_cases hc : t.key_cmp_func e.key k = 0
        · simp [key_test, hc, hi]
        · simp [key_test, hc, hi, ih]

/-! ## Facts about the search -/

theorem scan_skip {α : Type} (a : array_1d α) (p : α → Bool) (m fuel : Nat) (i : Int)
    (h : ∀ j, i ≤ j → j < i + m →
      a.low ≤ j ∧ j ≤ a.high ∧ ∃ e, a.values j = some e ∧ p e = false) :
    scan a p (fuel + m) i = scan a p fuel (i + m) := by
  induction m generalizing i with
  | zero => simp
  | succ m ih =>
    obtain ⟨hlo, hhi, e, he, hp⟩ := h i (le_refl i) (by omega)
    have hstep : scan a p (fuel + (m + 1)) i = scan a p (fuel + m) (i + 1) := by
      show scan a p ((fuel + m) + 1) i = _
      simp [scan, array_1d_inspect_value, hlo, hhi, he, hp]
    rw [hstep, ih (i + 1) (fun j h1 h2 => h j (by omega) (by omega))]
    congr 1
    push_cast
    omega

theorem scan_at_null {α : Type} (a : array_1d α) (p : α → Bool) (fuel : Nat) (i : Int)
    (hlo : a.low ≤ i) (hhi : i ≤ a.high) (h : a.values i = none) :
    scan a p (fuel + 1) i = .null i := by
  simp [scan, array_1d_inspect_value, hlo, hhi, h]

theorem scan_at_hit {α : Type} (a : array_1d α) (p : α → Bool) (fuel : Nat) (i : Int) (e : α)
    (hlo : a.low ≤ i) (hhi : i ≤ a.high) (h : a.values i = some e) (hp : p e = true) :
    scan a p (fuel + 1) i = .hit i e := by
  simp [scan, array_1d_inspect_value, hlo, hhi, h, hp]

theorem scan_at_outside {α : Type} (a : array_1d α) (p : α → Bool) (fuel : Nat) (i : Int)
    (h : a.high < i) : scan a p (fuel + 1) i = .fault (.out_of_bounds i) := by
  have : ¬ (a.low ≤ i ∧ i ≤ a.high) := by omega
  simp [scan, array_1d_inspect_value, this]

theorem loop_bound_well_formed {t : table K V} (h : well_formed t) :
    loop_bound t.entries = 80001 := by
  obtain ⟨-, hhigh, -⟩ := h
  simp [loop_bound, hhigh, MAXSIZE]

/-- In a well-formed table every slot below `first_free_pos` holds an entry. -/
theorem well_formed_occupied {t : table K V} (h : well_formed t) {i : Int}
    (h0 : 0 ≤ i) (h1 : i < t.first_free_pos) : ∃ e, t.entries.values i = some e := by
  obtain ⟨-, -, -, hle, hs⟩ := h
  have := (hs i h0 (by omega)).2 h1
  exact Option.isSome_iff_exists.mp this

/-- In a well-formed table every slot from `first_free_pos` on is `NULL`. -/
theorem well_formed_free {t : table K V} (h : well_formed t) {i : Int}
    (h0 : t.first_free_pos ≤ i) (h1 : i < MAXSIZE) : t.entries.values i = none := by
  obtain ⟨-, -, hge, -, hs⟩ := h
  have := (hs i (by omega) h1).not.2 (by omega)
  simpa using this

theorem holds_lt_first_free {t : table K V} (h : well_formed t) {i : Int}
    {e : table_entry K V} (he : holds t i e) : i < t.first_free_pos := by
  obtain ⟨h0, h1, hv⟩ := he
  by_contra hcon
  have := well_formed_free h (not_lt.mp hcon) h1
  rw [hv] at this
  cases this

/-- A stored key that compares equal to `k` has a lowest index. -/
theorem exists_first_match {t : table K V} {k : K} (h : key_stored t k) :
    ∃ i e, first_match t k i e := by
  classical
  have hex : ∃ n : Nat, ∃ e, holds t (n : Int) e ∧ t.key_cmp_func e.key k = 0 := by
    obtain ⟨i, e, he, hc⟩ := h
    refine ⟨i.toNat, e, ?_, hc⟩
    have : ((i.toNat : Nat) : Int) = i := Int.toNat_of_nonneg he.1
    rw [this]
    exact he
  obtain ⟨e, he, hc⟩ := Nat.find_spec hex
  refine ⟨(Nat.find hex : Nat), e, he, hc, ?_⟩
  intro j e' hj hlt hc'
  have hjn : ((j.toNat : Nat) : Int) = j := Int.toNat_of_nonneg hj.1
  have hmin := Nat.find_min hex (m := j.toNat) (by omega)
  apply hmin
  refine ⟨e', ?_, hc'⟩
  rw [hjn]
  exact hj

/-- The search finds the lowest-index entry matching `k`. -/
theorem scan_first_match {t : table K V} (hwf : well_formed t) {k : K} {i : Int}
    {e : table_entry K V} (h : first_match t k i e) :
    scan t.entries (key_test t k) (loop_bound t.entries) 0 = .hit i e := by
  obtain ⟨he, hc, hmin⟩ := h
  have hlo := hwf.1
  have hhigh := hwf.2.1
  have hi := holds_lt_first_free hwf he
  obtain ⟨h0, h1, hv⟩ := he
  rw [loop_bound_well_formed hwf]
  have hsplit : (80001 : Nat) = (80000 - i.toNat) + 1 + i.toNat := by
    have : i.toNat < 80000 := by
      have : (i.toNat : Int) = i := Int.toNat_of_nonneg h0
      unfold MAXSIZE at h1
      omega
    omega
  have hin : ((i.toNat : Nat) : Int) = i := Int.toNat_of_nonneg h0
  rw [hsplit, scan_skip]
  · simp only [zero_add, hin]
    exact scan_at_hit _ _ _ _ e (by omega) (by omega) hv (by simp [key_test, hc])
  · intro j hj0 hj1
    rw [hin] at hj1
    have hj0' : 0 ≤ j := by omega
    obtain ⟨e', he'⟩ := well_formed_occupied hwf hj0' (by omega)
    refine ⟨by omega, by omega, e', he', ?_⟩
    have := hmin j e' ⟨hj0', by omega, he'⟩ (by omega)
    simp [key_test, this]

/-- Without a match the search ends at the first free slot, if there is one. -/
theorem scan_absent_room {t : table K V} (hwf : well_formed t) {k : K}
    (habs : ¬ key_stored t k) (hroom : t.first_free_pos < MAXSIZE) :
    scan t.entries (key_test t k) (loop_bound t.entries) 0 = .null t.first_free_pos := by
  have hlo := hwf.1
  have hhigh := hwf.2.1
  have h0 := hwf.2.2.1
  rw [loop_bound_well_formed hwf]
  have hin : ((t.first_free_pos.toNat : Nat) : Int) = t.first_free_pos :=
    Int.toNat_of_nonneg h0
  have hsplit : (80001 : Nat) = (80000 - t.first_free_pos.toNat) + 1 + t.first_free_pos.toNat := by
    unfold MAXSIZE at hroom
    omega
  rw [hsplit, scan_skip]
  · simp only [zero_add, hin]
    exact scan_at_null _ _ _ _ (by omega) (by omega) (well_formed_free hwf (le_refl _) hroom)
  · intro j hj0 hj1
    rw [hin] at hj1
    have hj0' : 0 ≤ j := by omega
    obtain ⟨e', he'⟩ := well_formed_occupied hwf hj0' (by omega)
    refine ⟨by omega, by omega, e', he', ?_⟩
    have : t.key_cmp_func e'.key k ≠ 0 := fun hc =>
      habs ⟨j, e', ⟨hj0', by omega, he'⟩, hc⟩
    simp [key_test, this]

/-- Without a match in a full table the search reads slot `MAXSIZE`, outside the array. -/
theorem scan_absent_full {t : table K V} (hwf : well_formed t) {k : K}
    (habs : ¬ key_stored t k) (hfull : t.first_free_pos = MAXSIZE) :
    scan t.entries (key_test t k) (loop_bound t.entries) 0 =
      .fault (.out_of_bounds MAXSIZE) := by
  have hlo := hwf.1
  have hhigh := hwf.2.1
  rw [loop_bound_well_formed hwf]
  have hsplit : (80001 : Nat) = 0 + 1 + 80000 := rfl
  rw [hsplit, scan_skip]
  · have : ((0 : Int) + ((80000 : Nat) : Int)) = MAXSIZE := by simp [MAXSIZE]
    rw [this]
    exact scan_at_outside _ _ _ _ (by omega)
  · intro j hj0 hj1
    have hj0' : 0 ≤ j := by omega
    have hj1' : j < MAXSIZE := by simp [MAXSIZE]; omega
    obtain ⟨e', he'⟩ := well_formed_occupied hwf hj0' (by omega)
    refine ⟨by omega, by omega, e', he', ?_⟩
    have : t.key_cmp_func e'.key k ≠ 0 := fun hc =>
      habs ⟨j, e', ⟨hj0', hj1', he'⟩, hc⟩
    simp [key_test, this]

/-! ## The operations on well-formed tables -/

@[simp] theorem kill_pair_entries (t : table K V) (e : table_entry K V) :
    (kill_pair t e).entries = t.entries := by
  rcases t with ⟨en, c, kk, vk, f, kl⟩
  cases kk <;> cases vk <;> rfl

@[simp] theorem kill_pair_first_free_pos (t : table K V) (e : table_entry K V) :
    (kill_pair t e).first_free_pos = t.first_free_pos := by
  rcases t with ⟨en, c, kk, vk, f, kl⟩
  cases kk <;> cases vk <;> rfl

@[simp] theorem kill_pair_key_cmp_func (t : table K V) (e : table_entry K V) :
    (kill_pair t e).key_cmp_func = t.key_cmp_func := by
  rcases t with ⟨en, c, kk, vk, f, kl⟩
  cases kk <;> cases vk <;> rfl

@[simp] theorem kill_pair_key_kill_func (t : table K V) (e : table_entry K V) :
    (kill_pair t e).key_kill_func = t.key_kill_func := by
  rcases t with ⟨en, c, kk, vk, f, kl⟩
  cases kk <;> cases vk <;> rfl

@[simp] theorem kill_pair_value_kill_func (t : table K V) (e : table_entry K V) :
    (kill_pair t e).value_kill_func = t.value_kill_func := by
  rcases t with ⟨en, c, kk, vk, f, kl⟩
  cases kk <;> cases vk <;> rfl

theorem table_lookup_of_first_match {t : table K V} (hwf : well_formed t) {k : K} {i : Int}
    {e : table_entry K V} (h : first_match t k i e) : table_lookup t k = .ok e.value := by
  unfold table_lookup
  rw [table_lookup_loop_eq_scan, scan_first_match hwf h]

theorem table_lookup_of_absent {t : table K V} (hwf : well_formed t) {k : K}
    (habs : ¬ key_stored t k) (hroom : t.first_free_pos < MAXSIZE) :
    table_lookup t k = .ok none := by
  unfold table_lookup
  rw [table_lookup_loop_eq_scan, scan_absent_room hwf habs hroom]

theorem table_lookup_absent_full {t : table K V} (hwf : well_formed t) {k : K}
    (habs : ¬ key_stored t k) (hfull : t.first_free_pos = MAXSIZE) :
    table_lookup t k = .error (.out_of_bounds MAXSIZE) := by
  unfold table_lookup
  rw [table_lookup_loop_eq_scan, scan_absent_full hwf habs hfull]

theorem table_insert_of_first_match {t : table K V} (hwf : well_formed t) {k : K} {i : Int}
    {e : table_entry K V} (h : first_match t k i e) (v : Option V) :
    table_insert t k v = .ok (entry_assign (kill_pair t e) i k v) := by
  unfold table_insert
  rw [table_insert_loop_eq_scan, scan_first_match hwf h]

theorem table_insert_of_absent {t : table K V} (hwf : well_formed t) {k : K}
    (habs : ¬ key_stored t k) (hroom : t.first_free_pos < MAXSIZE) (v : Option V) :
    table_insert t k v = .ok (appended t k v) := by
  unfold table_insert
  rw [table_insert_loop_eq_scan, scan_absent_room hwf habs hroom]
  have h0 := hwf.2.2.1
  have hlo := hwf.1
  have hhigh := hwf.2.1
  have h1 : ¬ (t.first_free_pos + 1 > MAXSIZE) := by omega
  have h2 : t.entries.low ≤ t.first_free_pos ∧ t.first_free_pos ≤ t.entries.high := by omega
  simp [table_insert_append, array_1d_set_value, h1, h2, appended, table_entry_create]

theorem table_insert_absent_full {t : table K V} (hwf : well_formed t) {k : K}
    (habs : ¬ key_stored t k) (hfull : t.first_free_pos = MAXSIZE) (v : Option V) :
    table_insert t k v = .error (.out_of_bounds MAXSIZE) := by
  unfold table_insert
  rw [table_insert_loop_eq_scan, scan_absent_full hwf habs hfull]

theorem table_remove_entry_eq {t : table K V} (hwf : well_formed t) {i : Int}
    {e last : table_entry K V} (he : holds t i e)
    (hlast : t.entries.values (t.first_free_pos - 1) = some last) :
    table_remove_entry t i e = .ok (removed t i e last) := by
  have hi := holds_lt_first_free hwf he
  have hlo := hwf.1
  have hhigh := hwf.2.1
  have hle := hwf.2.2.2.1
  have h2 : t.entries.low ≤ t.first_free_pos - 1 ∧ t.first_free_pos - 1 ≤ t.entries.high := by
    have := he.1
    omega
  simp [table_remove_entry, array_1d_inspect_value, array_1d_set_value, h2, hlast,
    entry_assign, removed]

theorem table_remove_of_first_match {t : table K V} (hwf : well_formed t) {k : K} {i : Int}
    {e : table_entry K V} (h : first_match t k i e) :
    ∃ last, t.entries.values (t.first_free_pos - 1) = some last ∧
      table_remove t k = .ok (removed t i e last) := by
  have hi := holds_lt_first_free hwf h.1
  obtain ⟨last, hlast⟩ := well_formed_occupied hwf (i := t.first_free_pos - 1)
    (by have := h.1.1; omega) (by omega)
  refine ⟨last, hlast, ?_⟩
  unfold table_remove
  rw [table_remove_loop_eq_scan t k (by have := hwf.2.1; omega), scan_first_match hwf h]
  exact table_remove_entry_eq hwf h.1 hlast

theorem table_remove_of_absent {t : table K V} (hwf : well_formed t) {k : K}
    (habs : ¬ key_stored t k) (hroom : t.first_free_pos < MAXSIZE) :
    table_remove t k = .ok t := by
  unfold table_remove
  rw [table_remove_loop_eq_scan t k (by have := hwf.2.1; omega),
    scan_absent_room hwf habs hroom]

theorem table_remove_absent_full {t : table K V} (hwf : well_formed t) {k : K}
    (habs : ¬ key_stored t k) (hfull : t.first_free_pos = MAXSIZE) :
    table_remove t k = .error (.out_of_bounds MAXSIZE) := by
  unfold table_remove
  rw [table_remove_loop_eq_scan t k (by have := hwf.2.1; omega),
    scan_absent_full hwf habs hfull]

/-! ## Preservation of well-formedness -/

theorem well_formed_table_empty (cmp : K → K → Int) (kk vk : Bool) :
    well_formed (table_empty cmp kk vk : table K V) := by
  refine ⟨rfl, rfl, le_refl _, by simp [table_empty, MAXSIZE], ?_⟩
  intro i h0 _
  simp [table_empty, array_1d_create]
  omega

theorem well_formed_entry_assign {t : table K V} (hwf : well_formed t) {i : Int}
    {e e0 : table_entry K V} (he : holds t i e) (k : K) (v : Option V) :
    well_formed (entry_assign (kill_pair t e0) i k v) := by
  have hi := holds_lt_first_free hwf he
  obtain ⟨hlo, hhigh, h0, hle, hs⟩ := hwf
  refine ⟨by simpa [entry_assign] using hlo, by simpa [entry_assign] using hhigh,
    by simpa [entry_assign] using h0, by simpa [entry_assign] using hle, ?_⟩
  intro j hj0 hj1
  by_cases hji : j = i
  · subst hji
    simp [entry_assign, hi]
  · simpa [entry_assign, Function.update_noteq hji] using hs j hj0 hj1

theorem well_formed_appended {t : table K V} (hwf : well_formed t)
    (hroom : t.first_free_pos < MAXSIZE) (k : K) (v : Option V) :
    well_formed (appended t k v) := by
  obtain ⟨hlo, hhigh, h0, hle, hs⟩ := hwf
  refine ⟨hlo, hhigh, by simp [appended]; omega, by simp [appended]; omega, ?_⟩
  intro j hj0 hj1
  by_cases hji : j = t.first_free_pos
  · subst hji
    simp [appended]
  · have := hs j hj0 hj1
    simp only [appended, Function.update_noteq hji]
    rw [this]
    omega

theorem well_formed_removed {t : table K V} (hwf : well_formed t) {i : Int}
    {e last : table_entry K V} (he : holds t i e) :
    well_formed (removed t i e last) := by
  have hi := holds_lt_first_free hwf he
  obtain ⟨hlo, hhigh, h0, hle, hs⟩ := hwf
  have hi0 := he.1
  refine ⟨hlo, hhigh, by simp [removed]; omega, by simp [removed]; omega, ?_⟩
  intro j hj0 hj1
  simp only [removed]
  by_cases hjl : j = t.first_free_pos - 1
  · subst hjl
    simp
  · rw [Function.update_noteq hjl]
    by_cases hji : j = i
    · subst hji
      simp
      omega
    · rw [Function.update_noteq hji, hs j hj0 hj1]
      omega

/-! ## Entries after an update -/

theorem holds_kill_pair {t : table K V} {e0 : table_entry K V} {j : Int}
    {x : table_entry K V} : holds (kill_pair t e0) j x ↔ holds t j x := by
  simp [holds]

theorem holds_entry_assign_same {t : table K V} {i : Int} (h0 : 0 ≤ i) (h1 : i < MAXSIZE)
    (k : K) (v : Option V) : holds (entry_assign t i k v) i ⟨k, v⟩ := by
  simp [holds, entry_assign, h0, h1]

theorem holds_entry_assign_other {t : table K V} {i j : Int} (hji : j ≠ i) (k : K)
    (v : Option V) {x : table_entry K V} :
    holds (entry_assign t i k v) j x ↔ holds t j x := by
  simp [holds, entry_assign, Function.update_noteq hji]

/-- After the in-place overwrite the new pair is the lowest-index match of its key. -/
theorem first_match_entry_assign {t : table K V} {k : K} {i : Int} {e : table_entry K V}
    (h : first_match t k i e) (hk : t.key_cmp_func k k = 0) (v : Option V) :
    first_match (entry_assign (kill_pair t e) i k v) k i ⟨k, v⟩ := by
  obtain ⟨he, -, hmin⟩ := h
  refine ⟨holds_entry_assign_same he.1 he.2.1 k v, by simpa [entry_assign] using hk, ?_⟩
  intro j x hj hlt
  have hji : j ≠ i := by omega
  rw [holds_entry_assign_other hji, holds_kill_pair] at hj
  simpa [entry_assign] using hmin j x hj hlt

/-- After an append the new pair is the lowest-index match of its key. -/
theorem first_match_appended {t : table K V} (hwf : well_formed t) {k : K}
    (habs : ¬ key_stored t k) (hroom : t.first_free_pos < MAXSIZE)
    (hk : t.key_cmp_func k k = 0) (v : Option V) :
    first_match (appended t k v) k t.first_free_pos ⟨k, v⟩ := by
  refine ⟨⟨hwf.2.2.1, hroom, by simp [appended]⟩, hk, ?_⟩
  intro j x hj hlt hc
  have hji : j ≠ t.first_free_pos := by omega
  obtain ⟨hj0, hj1, hv⟩ := hj
  simp only [appended, Function.update_noteq hji] at hv
  exact habs ⟨j, x, ⟨hj0, hj1, hv⟩, hc⟩

/-- What `table_insert` of a self-equal key does whenever the key is stored or a slot
is free. -/
theorem table_insert_spec {t : table K V} (hwf : well_formed t) {k : K}
    (h : t.first_free_pos < MAXSIZE ∨ key_stored t k) (hk : t.key_cmp_func k k = 0)
    (v : Option V) :
    ∃ t' i, table_insert t k v = .ok t' ∧ well_formed t' ∧
      t'.key_cmp_func = t.key_cmp_func ∧ first_match t' k i ⟨k, v⟩ := by
  by_cases hst : key_stored t k
  · obtain ⟨i, e, hfm⟩ := exists_first_match hst
    exact ⟨_, i, table_insert_of_first_match hwf hfm v,
      well_formed_entry_assign hwf hfm.1 k v, by simp [entry_assign],
      first_match_entry_assign hfm hk v⟩
  · have hroom : t.first_free_pos < MAXSIZE := h.resolve_right hst
    exact ⟨_, _, table_insert_of_absent hwf hst hroom v, well_formed_appended hwf hroom k v,
      rfl, first_match_appended hwf hst hroom hk v⟩

/-! ## The iteration bound is never exhausted -/

theorem inspect_error {α : Type} {a : array_1d α} {i : Int} {f : Fault}
    (h : array_1d_inspect_value a i = .error f) :
    f = .out_of_bounds i ∧ ¬ (a.low ≤ i ∧ i ≤ a.high) := by
  unfold array_1d_inspect_value at h
  split at h
  · cases h
  · rename_i hb
    injection h with h
    exact ⟨h.symm, hb⟩

theorem set_value_error {α : Type} {a : array_1d α} {v : Option α} {i : Int} {f : Fault}
    (h : array_1d_set_value a v i = .error f) :
    f = .out_of_bounds i ∧ ¬ (a.low ≤ i ∧ i ≤ a.high) := by
  unfold array_1d_set_value at h
  split at h
  · cases h
  · rename_i hb
    injection h with h
    exact ⟨h.symm, hb⟩

theorem scan_ne_fuel {α : Type} (a : array_1d α) (p : α → Bool) (fuel : Nat) (i : Int)
    (hb : a.high < i + fuel) : scan a p (fuel + 1) i ≠ .fault .fuel := by
  induction fuel generalizing i with
  | zero =>
    simp only [scan]
    cases h : array_1d_inspect_value a i with
    | error f =>
      rw [(inspect_error h).1]
      simp
    | ok o =>
      have hi := (inspect_ok_le_high h).2.1
      simp at hb
      omega
  | succ n ih =>
    rw [scan]
    cases h : array_1d_inspect_value a i with
    | error f =>
      rw [(inspect_error h).1]
      simp
    | ok o =>
      cases o with
      | none => simp
      | some e =>
        by_cases hp : p e = true
        · simp [hp]
        · simp only [hp]
          exact ih (i + 1) (by push_cast at hb; omega)

theorem loop_bound_covers {α : Type} (a : array_1d α) :
    ∃ fuel : Nat, loop_bound a = fuel + 1 ∧ a.high < 0 + (fuel : Int) := by
  refine ⟨(a.high + 1).toNat, rfl, ?_⟩
  have := Int.self_le_toNat (a.high + 1)
  omega

/-- The function `table_lookup` always ends within the iteration bound. -/
theorem table_lookup_ne_fuel (t : table K V) (k : K) : table_lookup t k ≠ .error .fuel := by
  unfold table_lookup
  rw [table_lookup_loop_eq_scan]
  obtain ⟨fuel, hf, hb⟩ := loop_bound_covers t.entries
  rw [hf]
  have h := scan_ne_fuel t.entries (key_test t k) fuel 0 hb
  cases hs : scan t.entries (key_test t k) (fuel + 1) 0 with
  | fault f =>
    intro hc
    injection hc with hc
    subst hc
    exact h hs
  | null j => simp
  | hit j e => simp

theorem table_insert_append_ne_fuel (t : table K V) (k : K) (v : Option V) (j : Int) :
    table_insert_append t k v j ≠ .error .fuel := by
  simp only [table_insert_append]
  split
  · simp
  · cases h : array_1d_set_value t.entries (some (table_entry_create k v)) j with
    | error f =>
      rw [(set_value_error h).1]
      simp
    | ok a => simp

/-- The function `table_insert` always ends within the iteration bound. -/
theorem table_insert_ne_fuel (t : table K V) (k : K) (v : Option V) :
    table_insert t k v ≠ .error .fuel := by
  unfold table_insert
  rw [table_insert_loop_eq_scan]
  obtain ⟨fuel, hf, hb⟩ := loop_bound_covers t.entries
  rw [hf]
  have h := scan_ne_fuel t.entries (key_test t k) fuel 0 hb
  cases hs : scan t.entries (key_test t k) (fuel + 1) 0 with
  | fault f =>
    intro hc
    injection hc with hc
    subst hc
    exact h hs
  | null j => exact table_insert_append_ne_fuel t k v j
  | hit j e => simp

theorem table_remove_entry_ne_fuel (t : table K V) (i : Int) (e : table_entry K V) :
    table_remove_entry t i e ≠ .error .fuel := by
  simp only [table_remove_entry]
  cases h : array_1d_inspect_value (kill_pair t e).entries ((kill_pair t e).first_free_pos - 1) with
  | error f =>
    rw [(inspect_error h).1]
    simp
  | ok o =>
    cases o with
    | none => simp
    | some last =>
      simp only
      cases h2 : array_1d_set_value (entry_assign (kill_pair t e) i last.key last.value).entries
          none ((entry_assign (kill_pair t e) i last.key last.value).first_free_pos - 1) with
      | error f =>
        rw [(set_value_error h2).1]
        simp
      | ok a => simp

theorem table_remove_loop_ne_fuel (t : table K V) (k : K) (fuel : Nat) (i : Int)
    (hb : t.entries.high < i + fuel) : table_remove_loop t k (fuel + 1) i ≠ .error .fuel := by
  induction fuel generalizing i with
  | zero =>
    rw [table_remove_loop]
    cases h : array_1d_inspect_value t.entries i with
    | error f =>
      rw [(inspect_error h).1]
      simp
    | ok o =>
      have hi := (inspect_ok_le_high h).2.1
      simp at hb
      omega
  | succ n ih =>
    rw [table_remove_loop]
    cases h : array_1d_inspect_value t.entries i with
    | error f =>
      rw [(inspect_error h).1]
      simp
    | ok o =>
      cases o with
      | none => simp
      | some e =>
        simp only
        split
        · split
          · exact table_remove_entry_ne_fuel t i e
          · exact ih (i + 1) (by push_cast at hb; omega)
        · simp

/-- The function `table_remove` always ends within the iteration bound. -/
theorem table_remove_ne_fuel (t : table K V) (k : K) : table_remove t k ≠ .error .fuel := by
  unfold table_remove
  obtain ⟨fuel, hf, hb⟩ := loop_bound_covers t.entries
  rw [hf]
  exact table_remove_loop_ne_fuel t k fuel 0 hb

/-! ## Facts about the concrete tables -/

theorem well_formed_demo_table : well_formed demo_table := by
  refine ⟨rfl, rfl, by decide, by decide, ?_⟩
  intro i h0 _
  simp only [demo_table]
  by_cases hi0 : i = 0
  · simp [hi0]
  · by_cases hi1 : i = 1
    · simp [hi1]
    · simp [hi0, hi1]; omega

theorem holds_demo_table {i : Int} {e : table_entry Int Int} (h : holds demo_table i e) :
    e.key = 5 ∨ e.key = 7 := by
  obtain ⟨-, -, hv⟩ := h
  simp only [demo_table] at hv
  split at hv
  · injection hv with hv; subst hv; exact Or.inl rfl
  · split at hv
    · injection hv with hv; subst hv; exact Or.inr rfl
    · cases hv

theorem demo_table_absent_nine : ¬ key_stored demo_table 9 := by
  rintro ⟨i, e, he, hc⟩
  have hc' : e.key - 9 = 0 := hc
  rcases holds_demo_table he with h | h <;> omega

theorem demo_table_first_match_five : first_match demo_table 5 0 ⟨5, some 50⟩ := by
  refine ⟨⟨by decide, by decide, rfl⟩, by decide, ?_⟩
  intro j e' hj hlt
  have := hj.1
  omega

theorem well_formed_skew_table : well_formed skew_table := by
  refine ⟨rfl, rfl, by decide, by decide, ?_⟩
  intro i h0 _
  simp only [skew_table]
  by_cases hi0 : i = 0
  · simp [hi0]
  · by_cases hi1 : i = 1
    · simp [hi1]
    · simp [hi0, hi1]; omega

theorem well_formed_filled {n : Nat} (hn : n ≤ 80000) : well_formed (filled n) := by
  refine ⟨rfl, rfl, by simp [filled], by simp [filled, MAXSIZE]; omega, ?_⟩
  intro i h0 _
  simp only [filled]
  by_cases hi : i < n
  · simp [h0, hi]
  · simp [hi]

theorem filled_absent (n : Nat) : ¬ key_stored (filled n) (n : Int) := by
  rintro ⟨i, e, ⟨-, -, hv⟩, hc⟩
  simp only [filled] at hv
  split at hv
  · rename_i hi
    injection hv with hv
    subst hv
    have hc' : i - (n : Int) = 0 := hc
    omega
  · cases hv

theorem appended_filled (n : Nat) :
    appended (filled n) (n : Int) (some (n : Int)) = filled (n + 1) := by
  simp only [appended, filled]
  congr 2
  · funext i
    by_cases hi : i = (n : Int)
    · subst hi
      simp
    · rw [Function.update_noteq hi]
      have : (0 ≤ i ∧ i < (n : Int)) ↔ (0 ≤ i ∧ i < ((n + 1 : Nat) : Int)) := by
        push_cast
        omega
      simp only [this]

theorem table_insert_filled {n : Nat} (hn : n < 80000) :
    table_insert (filled n) (n : Int) (some (n : Int)) = .ok (filled (n + 1)) := by
  rw [table_insert_of_absent (well_formed_filled (le_of_lt hn)) (filled_absent n)
    (by simp [filled, MAXSIZE]; omega), appended_filled]

theorem filled_zero : filled 0 = table_empty cmp_int false false := by
  simp only [filled, table_empty, array_1d_create]
  congr 2
  funext i
  have : ¬ (0 ≤ i ∧ i < ((0 : Nat) : Int)) := by
    push_cast
    omega
  simp only [this, if_false]

theorem reachable_filled {n : Nat} (hn : n ≤ 80000) :
    reachable cmp_int false false (filled n) := by
  induction n with
  | zero => rw [filled_zero]; exact reachable.empty
  | succ m ih =>
    exact reachable.insert (m : Int) (some (m : Int)) (ih (by omega))
      (by simp [filled, MAXSIZE]; omega) (table_insert_filled (by omega))

theorem cmp_int_equivalence : cmp_equivalence cmp_int := by
  refine ⟨fun a => ?_, fun a b h => ?_, fun a b c h1 h2 => ?_⟩ <;>
    simp only [cmp_int] at * <;> omega

/-! ## Invariants of the reachable tables -/

theorem table_insert_cases {t t' : table K V} (hwf : well_formed t) {k : K} {v : Option V}
    (h : table_insert t k v = .ok t') :
    (∃ i e, first_match t k i e ∧ t' = entry_assign (kill_pair t e) i k v) ∨
    (¬ key_stored t k ∧ t.first_free_pos < MAXSIZE ∧ t' = appended t k v) := by
  by_cases hst : key_stored t k
  · obtain ⟨i, e, hfm⟩ := exists_first_match hst
    rw [table_insert_of_first_match hwf hfm v] at h
    injection h with h
    exact Or.inl ⟨i, e, hfm, h.symm⟩
  · by_cases hroom : t.first_free_pos < MAXSIZE
    · rw [table_insert_of_absent hwf hst hroom v] at h
      injection h with h
      exact Or.inr ⟨hst, hroom, h.symm⟩
    · have hfull : t.first_free_pos = MAXSIZE := le_antisymm hwf.2.2.2.1 (not_lt.mp hroom)
      rw [table_insert_absent_full hwf hst hfull v] at h
      cases h

theorem table_remove_cases {t t' : table K V} (hwf : well_formed t) {k : K}
    (h : table_remove t k = .ok t') :
    (∃ i e last, first_match t k i e ∧
      t.entries.values (t.first_free_pos - 1) = some last ∧ t' = removed t i e last) ∨
    (¬ key_stored t k ∧ t.first_free_pos < MAXSIZE ∧ t' = t) := by
  by_cases hst : key_stored t k
  · obtain ⟨i, e, hfm⟩ := exists_first_match hst
    obtain ⟨last, hlast, hrem⟩ := table_remove_of_first_match hwf hfm
    rw [hrem] at h
    injection h with h
    exact Or.inl ⟨i, e, last, hfm, hlast, h.symm⟩
  · by_cases hroom : t.first_free_pos < MAXSIZE
    · rw [table_remove_of_absent hwf hst hroom] at h
      injection h with h
      exact Or.inr ⟨hst, hroom, h.symm⟩
    · have hfull : t.first_free_pos = MAXSIZE := le_antisymm hwf.2.2.2.1 (not_lt.mp hroom)
      rw [table_remove_absent_full hwf hst hfull] at h
      cases h

theorem table_insert_well_formed {t t' : table K V} (hwf : well_formed t) {k : K}
    {v : Option V} (h : table_insert t k v = .ok t') : well_formed t' := by
  rcases table_insert_cases hwf h with ⟨i, e, hfm, rfl⟩ | ⟨-, hroom, rfl⟩
  · exact well_formed_entry_assign hwf hfm.1 k v
  · exact well_formed_appended hwf hroom k v

theorem table_remove_well_formed {t t' : table K V} (hwf : well_formed t) {k : K}
    (h : table_remove t k = .ok t') : well_formed t' := by
  rcases table_remove_cases hwf h with ⟨i, e, last, hfm, -, rfl⟩ | ⟨-, -, rfl⟩
  · exact well_formed_removed hwf hfm.1
  · exact hwf

theorem table_insert_key_cmp_func {t t' : table K V} (hwf : well_formed t) {k : K}
    {v : Option V} (h : table_insert t k v = .ok t') : t'.key_cmp_func = t.key_cmp_func := by
  rcases table_insert_cases hwf h with ⟨i, e, -, rfl⟩ | ⟨-, -, rfl⟩
  · simp [entry_assign]
  · rfl

theorem table_remove_key_cmp_func {t t' : table K V} (hwf : well_formed t) {k : K}
    (h : table_remove t k = .ok t') : t'.key_cmp_func = t.key_cmp_func := by
  rcases table_remove_cases hwf h with ⟨i, e, last, -, -, rfl⟩ | ⟨-, -, rfl⟩
  · simp [removed]
  · rfl

theorem reachable_well_formed {cmp : K → K → Int} {kk vk : Bool} {t : table K V}
    (h : reachable cmp kk vk t) : well_formed t := by
  induction h with
  | empty => exact well_formed_table_empty cmp kk vk
  | insert k v _ _ hins ih => exact table_insert_well_formed ih hins
  | remove k _ hrem ih => exact table_remove_well_formed ih hrem

theorem reachable_key_cmp_func {cmp : K → K → Int} {kk vk : Bool} {t : table K V}
    (h : reachable cmp kk vk t) : t.key_cmp_func = cmp := by
  induction h with
  | empty => rfl
  | insert k v hr _ hins ih =>
    rw [table_insert_key_cmp_func (reachable_well_formed hr) hins, ih]
  | remove k hr hrem ih =>
    rw [table_remove_key_cmp_func (reachable_well_formed hr) hrem, ih]

/-- Every entry of the table after a removal was an entry of the table before, at an
index other than the one removed. -/
theorem holds_removed {t : table K V} (hwf : well_formed t) {i : Int}
    {e last : table_entry K V} (he : holds t i e)
    (hlast : t.entries.values (t.first_free_pos - 1) = some last) {j : Int}
    {x : table_entry K V} (h : holds (removed t i e last) j x) :
    ∃ j', j' ≠ i ∧ holds t j' x ∧ (j = j' ∨ (j = i ∧ j' = t.first_free_pos - 1)) := by
  have hi := holds_lt_first_free hwf he
  obtain ⟨hj0, hj1, hv⟩ := h
  simp only [removed] at hv
  by_cases hjl : j = t.first_free_pos - 1
  · subst hjl
    simp at hv
  · rw [Function.update_noteq hjl] at hv
    by_cases hji : j = i
    · subst hji
      simp only [Function.update_same] at hv
      injection hv with hv
      subst hv
      exact ⟨t.first_free_pos - 1, by omega, ⟨by omega, by have := hwf.2.2.2.1; omega, hlast⟩,
        Or.inr ⟨rfl, rfl⟩⟩
    · rw [Function.update_noteq hji] at hv
      exact ⟨j, hji, ⟨hj0, hj1, hv⟩, Or.inl rfl⟩

theorem unique_keys_table_empty (cmp : K → K → Int) (kk vk : Bool) :
    unique_keys (table_empty cmp kk vk : table K V) := by
  rintro i j e e' ⟨-, -, hv⟩
  simp [table_empty, array_1d_create] at hv

theorem unique_keys_entry_assign {t : table K V} (heq : cmp_equivalence t.key_cmp_func)
    (hu : unique_keys t) {k : K} {i : Int} {e : table_entry K V}
    (hfm : first_match t k i e) (v : Option V) :
    unique_keys (entry_assign (kill_pair t e) i k v) := by
  obtain ⟨hrefl, hsymm, htrans⟩ := heq
  intro a b x y hx hy hc
  have hc' : t.key_cmp_func x.key y.key = 0 := by simpa [entry_assign] using hc
  by_cases ha : a = i <;> by_cases hb : b = i
  · omega
  · subst ha
    rw [holds_entry_assign_other hb, holds_kill_pair] at hy
    have hxk : x = ⟨k, v⟩ := by
      have := hx.2.2
      simp [entry_assign] at this
      exact this.symm
    subst hxk
    exact hu a b e y hfm.1 hy (htrans _ _ _ hfm.2.1 hc')
  · subst hb
    rw [holds_entry_assign_other ha, holds_kill_pair] at hx
    have hyk : y = ⟨k, v⟩ := by
      have := hy.2.2
      simp [entry_assign] at this
      exact this.symm
    subst hyk
    exact hu a b x e hx hfm.1 (htrans _ _ _ hc' (hsymm _ _ hfm.2.1))
  · rw [holds_entry_assign_other ha, holds_kill_pair] at hx
    rw [holds_entry_assign_other hb, holds_kill_pair] at hy
    exact hu a b x y hx hy hc'

theorem unique_keys_appended {t : table K V} (heq : cmp_equivalence t.key_cmp_func)
    (hu : unique_keys t) {k : K} (habs : ¬ key_stored t k) (v : Option V) :
    unique_keys (appended t k v) := by
  obtain ⟨hrefl, hsymm, htrans⟩ := heq
  have hold : ∀ {a : Int} {x : table_entry K V}, a ≠ t.first_free_pos →
      holds (appended t k v) a x → holds t a x := by
    intro a x ha hx
    obtain ⟨h0, h1, hv⟩ := hx
    simp only [appended, Function.update_noteq ha] at hv
    exact ⟨h0, h1, hv⟩
  have hnew : ∀ {x : table_entry K V}, holds (appended t k v) t.first_free_pos x →
      x = ⟨k, v⟩ := by
    intro x hx
    have := hx.2.2
    simp [appended] at this
    exact this.symm
  intro a b x y hx hy hc
  have hc' : t.key_cmp_func x.key y.key = 0 := hc
  by_cases ha : a = t.first_free_pos <;> by_cases hb : b = t.first_free_pos
  · omega
  · subst ha
    have hxk := hnew hx
    subst hxk
    exact absurd ⟨b, y, hold hb hy, hsymm _ _ hc'⟩ habs
  · subst hb
    have hyk := hnew hy
    subst hyk
    exact absurd ⟨a, x, hold ha hx, hc'⟩ habs
  · exact hu a b x y (hold ha hx) (hold hb hy) hc'

theorem unique_keys_removed {t : table K V} (hwf : well_formed t) (hu : unique_keys t)
    {i : Int} {e last : table_entry K V} (he : holds t i e)
    (hlast : t.entries.values (t.first_free_pos - 1) = some last) :
    unique_keys (removed t i e last) := by
  intro a b x y hx hy hc
  have hc' : t.key_cmp_func x.key y.key = 0 := by simpa [removed] using hc
  have hla : a ≠ t.first_free_pos - 1 := by
    rintro rfl
    have := hx.2.2
    simp [removed] at this
  have hlb : b ≠ t.first_free_pos - 1 := by
    rintro rfl
    have := hy.2.2
    simp [removed] at this
  obtain ⟨a', -, hxa, hca⟩ := holds_removed hwf he hlast hx
  obtain ⟨b', -, hyb, hcb⟩ := holds_removed hwf he hlast hy
  have := hu a' b' x y hxa hyb hc'
  omega

theorem reachable_unique_keys {cmp : K → K → Int} {kk vk : Bool} {t : table K V}
    (heq : cmp_equivalence cmp) (h : reachable cmp kk vk t) : unique_keys t := by
  induction h with
  | empty => exact unique_keys_table_empty cmp kk vk
  | insert k v hr _ hins ih =>
    have hwf := reachable_well_formed hr
    have heq' : cmp_equivalence _ := (reachable_key_cmp_func hr).symm ▸ heq
    rcases table_insert_cases hwf hins with ⟨i, e, hfm, rfl⟩ | ⟨habs, -, rfl⟩
    · exact unique_keys_entry_assign heq' ih hfm v
    · exact unique_keys_appended heq' ih habs v
  | remove k hr hrem ih =>
    have hwf := reachable_well_formed hr
    rcases table_remove_cases hwf hrem with ⟨i, e, last, hfm, hlast, rfl⟩ | ⟨-, -, rfl⟩
    · exact unique_keys_removed hwf ih hfm.1 hlast
    · exact ih

/-- Removing a stored or absent key from a table with unique keys leaves no entry for
the key, whenever the search stays inside the array. -/
theorem table_remove_clears {t : table K V} (hwf : well_formed t)
    (heq : cmp_equivalence t.key_cmp_func) (hu : unique_keys t) {k : K}
    (h : t.first_free_pos < MAXSIZE ∨ key_stored t k) :
    ∃ t', table_remove t k = .ok t' ∧ well_formed t' ∧ ¬ key_stored t' k ∧
      table_lookup t' k = .ok none := by
  obtain ⟨hrefl, hsymm, htrans⟩ := heq
  by_cases hst : key_stored t k
  · obtain ⟨i, e, hfm⟩ := exists_first_match hst
    obtain ⟨last, hlast, hrem⟩ := table_remove_of_first_match hwf hfm
    have hwf' : well_formed (removed t i e last) := well_formed_removed hwf hfm.1
    have habs : ¬ key_stored (removed t i e last) k := by
      rintro ⟨j, x, hx, hc⟩
      have hc' : t.key_cmp_func x.key k = 0 := by simpa [removed] using hc
      obtain ⟨j', hj', hxj, -⟩ := holds_removed hwf hfm.1 hlast hx
      exact hj' (hu j' i x e hxj hfm.1 (htrans _ _ _ hc' (hsymm _ _ hfm.2.1)))
    refine ⟨_, hrem, hwf', habs, table_lookup_of_absent hwf' habs ?_⟩
    have := hwf.2.2.2.1
    simp only [removed]
    omega
  · have hroom := h.resolve_right hst
    exact ⟨t, table_remove_of_absent hwf hst hroom, hwf, hst,
      table_lookup_of_absent hwf hst hroom⟩

/-! ## Deconstruction -/

theorem choose_key_remove_step {t : table K V} (hwf : well_formed t)
    (hrefl : ∀ a, t.key_cmp_func a a = 0) (hpos : 0 < t.first_free_pos) :
    ∃ e t', holds t (t.first_free_pos - 1) e ∧ table_choose_key t = .ok e.key ∧
      table_remove t e.key = .ok t' ∧ well_formed t' ∧
      t'.key_cmp_func = t.key_cmp_func ∧ t'.first_free_pos = t.first_free_pos - 1 := by
  have hle := hwf.2.2.2.1
  obtain ⟨e, he⟩ := well_formed_occupied hwf (i := t.first_free_pos - 1) (by omega) (by omega)
  have hh : holds t (t.first_free_pos - 1) e := ⟨by omega, by omega, he⟩
  have hb : t.entries.low ≤ t.first_free_pos - 1 ∧ t.first_free_pos - 1 ≤ t.entries.high := by
    have := hwf.1
    have := hwf.2.1
    omega
  have hch : table_choose_key t = .ok e.key := by
    simp [table_choose_key, array_1d_inspect_value, hb, he]
  obtain ⟨i, e0, hfm⟩ := exists_first_match ⟨_, e, hh, hrefl e.key⟩
  obtain ⟨last, -, hrem⟩ := table_remove_of_first_match hwf hfm
  exact ⟨e, _, hh, hch, hrem, well_formed_removed hwf hfm.1, by simp [removed], rfl⟩

theorem deconstruct_empties (n : Nat) : ∀ (t : table K V), well_formed t →
    (∀ a, t.key_cmp_func a a = 0) → t.first_free_pos = n →
    ∃ t', deconstruct n t = .ok t' ∧ table_is_empty t' = true := by
  induction n with
  | zero =>
    intro t _ _ h0
    exact ⟨t, rfl, by simp [table_is_empty, h0]⟩
  | succ m ih =>
    intro t hwf hrefl hn
    obtain ⟨e, t', -, hch, hrem, hwf', hcmp, hffp⟩ :=
      choose_key_remove_step hwf hrefl (by omega)
    obtain ⟨t'', hd, hem⟩ := ih t' hwf' (by rw [hcmp]; exact hrefl)
      (by rw [hffp, hn]; push_cast; omega)
    refine ⟨t'', ?_, hem⟩
    simp only [deconstruct, hch, hrem]
    exact hd

/-! ## The claims -/

/-- C1. Insert-then-lookup: on a well-formed table with fewer than `MAXSIZE` entries,
for a key `k` with `key_cmp_func(k, k) == 0` and any value `v`, `table_insert(t, k, v)`
completes and `table_lookup(t, k)` then returns `v`. -/
theorem insert_then_lookup (t : table K V) (k : K) (v : Option V)
    (hwf : well_formed t) (hroom : t.first_free_pos < MAXSIZE)
    (hk : t.key_cmp_func k k = 0) :
    ∃ t', table_insert t k v = .ok t' ∧ table_lookup t' k = .ok v := by
  obtain ⟨t', i, hins, hwf', -, hfm⟩ := table_insert_spec hwf (Or.inl hroom) hk v
  exact ⟨t', hins, table_lookup_of_first_match hwf' hfm⟩

/-- Witness for C1: the fresh key `9` with the value `90` on the two-entry table. -/
theorem insert_then_lookup_witness :
    well_formed demo_table ∧ demo_table.first_free_pos < MAXSIZE ∧
      demo_table.key_cmp_func 9 9 = 0 ∧
      ∃ t', table_insert demo_table 9 (some 90) = .ok t' ∧ table_lookup t' 9 = .ok (some 90) :=
  ⟨well_formed_demo_table, by decide, by decide,
    insert_then_lookup demo_table 9 (some 90) well_formed_demo_table (by decide) (by decide)⟩

/-- C2, as stated, fails for a comparison function that is not reflexive at `k`: in the
table `(1, 10), (1, 11)` under `cmp_skew` a stored key compares equal to `2`; the first
`table_insert` of key `2` overwrites slot 0, the second overwrites slot 1 (the table
still holds a key that compares equal to `2`), and `table_lookup` of `2` then returns
`NULL`, not the value inserted last. -/
theorem duplicate_insert_counterexample :
    well_formed skew_table ∧ key_stored skew_table 2 ∧
      ∃ t1 t2, table_insert skew_table 2 (some 20) = .ok t1 ∧ key_stored t1 2 ∧
        table_insert t1 2 (some 30) = .ok t2 ∧
        t2.first_free_pos = skew_table.first_free_pos ∧
        table_lookup t2 2 = .ok none ∧ table_lookup t2 2 ≠ .ok (some 30) :=
  ⟨well_formed_skew_table, ⟨0, ⟨1, some 10⟩, ⟨by decide, by decide, rfl⟩, rfl⟩,
    _, _, rfl, ⟨1, ⟨1, some 11⟩, ⟨by decide, by decide, rfl⟩, rfl⟩, rfl, rfl, rfl,
    fun h => by cases h⟩

/-- C2, amended. Duplicate-key insert replaces: on a well-formed table in which some
stored key compares equal to `k`, and with `key_cmp_func(k, k) == 0`,
`table_insert(t, k, v2)` overwrites the key and value of the lowest-index matching entry
in place (`first_free_pos` and every other slot are unchanged), and after
`table_insert(t, k, v1); table_insert(t, k, v2)` the call `table_lookup(t, k)` returns
`v2`. -/
theorem duplicate_insert_replaces (t : table K V) (k : K) (v1 v2 : Option V)
    (hwf : well_formed t) (hst : key_stored t k) (hk : t.key_cmp_func k k = 0) :
    (∃ i e t', first_match t k i e ∧ table_insert t k v2 = .ok t' ∧
        t'.entries.values i = some ⟨k, v2⟩ ∧
        (∀ j, j ≠ i → t'.entries.values j = t.entries.values j) ∧
        t'.first_free_pos = t.first_free_pos) ∧
    (∃ t1 t2, table_insert t k v1 = .ok t1 ∧ table_insert t1 k v2 = .ok t2 ∧
        t2.first_free_pos = t.first_free_pos ∧ table_lookup t2 k = .ok v2) := by
  obtain ⟨i, e, hfm⟩ := exists_first_match hst
  refine ⟨⟨i, e, _, hfm, table_insert_of_first_match hwf hfm v2, ?_, ?_, ?_⟩, ?_⟩
  · simp [entry_assign]
  · intro j hj
    simp [entry_assign, Function.update_noteq hj]
  · simp [entry_assign]
  · have hwf1 : well_formed (entry_assign (kill_pair t e) i k v1) :=
      well_formed_entry_assign hwf hfm.1 k v1
    have hfm1 := first_match_entry_assign hfm hk v1
    have hk1 : (entry_assign (kill_pair t e) i k v1).key_cmp_func k k = 0 := by
      simpa [entry_assign] using hk
    refine ⟨_, _, table_insert_of_first_match hwf hfm v1,
      table_insert_of_first_match hwf1 hfm1 v2, by simp [entry_assign], ?_⟩
    exact table_lookup_of_first_match
      (well_formed_entry_assign hwf1 hfm1.1 k v2)
      (first_match_entry_assign hfm1 hk1 v2)

/-- Witness for the amended C2: key `5` is stored in the two-entry table. -/
theorem duplicate_insert_replaces_witness :
    well_formed demo_table ∧ key_stored demo_table 5 ∧ demo_table.key_cmp_func 5 5 = 0 ∧
      ∃ t1 t2, table_insert demo_table 5 (some 51) = .ok t1 ∧
        table_insert t1 5 (some 52) = .ok t2 ∧
        t2.first_free_pos = demo_table.first_free_pos ∧ table_lookup t2 5 = .ok (some 52) :=
  ⟨well_formed_demo_table, ⟨0, _, demo_table_first_match_five.1, by decide⟩, by decide,
    (duplicate_insert_replaces demo_table 5 (some 51) (some 52) well_formed_demo_table
      ⟨0, _, demo_table_first_match_five.1, by decide⟩ (by decide)).2⟩

/-- C4. Remove of an absent key is a no-op: on a well-formed table with fewer than
`MAXSIZE` entries in which no stored key compares equal to `k`, `table_remove(t, k)`
completes and returns the table as it was: every slot, `first_free_pos` and the log of
kill-function calls are unchanged. -/
theorem remove_absent_noop (t : table K V) (k : K) (hwf : well_formed t)
    (hroom : t.first_free_pos < MAXSIZE) (habs : ¬ key_stored t k) :
    table_remove t k = .ok t :=
  table_remove_of_absent hwf habs hroom

/-- Witness for C4: key `9` is not stored in the two-entry table. -/
theorem remove_absent_noop_witness :
    well_formed demo_table ∧ demo_table.first_free_pos < MAXSIZE ∧
      ¬ key_stored demo_table 9 ∧ table_remove demo_table 9 = .ok demo_table :=
  ⟨well_formed_demo_table, by decide, demo_table_absent_nine,
    remove_absent_noop demo_table 9 well_formed_demo_table (by decide)
      demo_table_absent_nine⟩

/-- C5. Lookup of an absent key returns the not-found sentinel: on a well-formed table
with fewer than `MAXSIZE` entries whose stored values are all non-`NULL`,
`table_lookup(t, k)` completes, and it returns `NULL` if and only if no stored key
compares equal to `k`; `table_lookup` on `table_empty(...)` returns `NULL` for every
key. -/
theorem lookup_null_iff_absent (t : table K V) (k : K) (hwf : well_formed t)
    (hroom : t.first_free_pos < MAXSIZE)
    (hnn : ∀ i e, holds t i e → e.value ≠ none) :
    (∃ r, table_lookup t k = .ok r) ∧
    (table_lookup t k = .ok none ↔ ¬ key_stored t k) ∧
    (∀ (cmp : K → K → Int) (kk vk : Bool) (k' : K),
      table_lookup (table_empty cmp kk vk : table K V) k' = .ok none) := by
  refine ⟨?_, ?_, ?_⟩
  · by_cases hst : key_stored t k
    · obtain ⟨i, e, hfm⟩ := exists_first_match hst
      exact ⟨_, table_lookup_of_first_match hwf hfm⟩
    · exact ⟨_, table_lookup_of_absent hwf hst hroom⟩
  · constructor
    · intro hl hst
      obtain ⟨i, e, hfm⟩ := exists_first_match hst
      rw [table_lookup_of_first_match hwf hfm] at hl
      injection hl with hl
      exact hnn i e hfm.1 hl
    · intro habs
      exact table_lookup_of_absent hwf habs hroom
  · intro cmp kk vk k'
    have hwe := well_formed_table_empty (V := V) cmp kk vk
    apply table_lookup_of_absent hwe
    · rintro ⟨i, e, ⟨-, -, hv⟩, -⟩
      simp [table_empty, array_1d_create] at hv
    · simp [table_empty, MAXSIZE]

/-- Witness for C5 on the two-entry table, whose values are `50` and `70`. -/
theorem lookup_null_iff_absent_witness :
    well_formed demo_table ∧ demo_table.first_free_pos < MAXSIZE ∧
      (∀ i e, holds demo_table i e → e.value ≠ none) ∧
      (table_lookup demo_table 9 = .ok none ↔ ¬ key_stored demo_table 9) := by
  have hnn : ∀ i e, holds demo_table i e → e.value ≠ none := by
    rintro i e ⟨-, -, hv⟩
    simp only [demo_table] at hv
    split at hv
    · injection hv with hv; subst hv; simp
    · split at hv
      · injection hv with hv; subst hv; simp
      · cases hv
  exact ⟨well_formed_demo_table, by decide, hnn,
    (lookup_null_iff_absent demo_table 9 well_formed_demo_table (by decide) hnn).2.1⟩

/-- C6, the code at the failing input. On the table at capacity with the keys
`0 .. MAXSIZE - 1`, inserting the new key `MAXSIZE`: the search loop of `table_insert`
has no bound and reads slot `MAXSIZE`, outside the array; and the code after the loop,
entered with that index, increments `first_free_pos` to `MAXSIZE + 1` before it tests
the capacity, so the count is changed even though nothing is stored. -/
theorem insert_at_capacity_not_noop :
    well_formed full_table ∧ full_table.first_free_pos = MAXSIZE ∧
      ¬ key_stored full_table 80000 ∧
      table_insert full_table 80000 (some 0) = .error (.out_of_bounds MAXSIZE) ∧
      ∃ t', table_insert_append full_table 80000 (some 0) MAXSIZE = .ok t' ∧
        t'.first_free_pos = MAXSIZE + 1 ∧ t'.first_free_pos ≠ full_table.first_free_pos :=
  ⟨well_formed_filled (le_refl _), rfl, filled_absent 80000,
    table_insert_absent_full (well_formed_filled (le_refl _)) (filled_absent 80000) rfl _,
    _, rfl, rfl, by decide⟩

/-- C8, the code at the failing input. The documentation of `table_insert` says that no
test is performed to check if the key is a duplicate, so the insert of a key that is
already stored adds an entry. The code tests: key `5` is stored in the two-entry table,
and `table_insert` of key `5` overwrites that entry; `first_free_pos` stays `2`, not
`3`, and no second entry with key `5` appears in slot 2. -/
theorem insert_duplicate_counterexample :
    well_formed demo_table ∧ demo_table.first_free_pos < MAXSIZE ∧
      ∃ t', table_insert demo_table 5 (some 99) = .ok t' ∧
        t'.first_free_pos = demo_table.first_free_pos ∧
        t'.first_free_pos ≠ demo_table.first_free_pos + 1 ∧
        t'.entries.values 0 = some ⟨5, some 99⟩ ∧ t'.entries.values 2 = none :=
  ⟨well_formed_demo_table, by decide, _, rfl, rfl, by decide, rfl, rfl⟩

/-- What the code of `table_insert` does about duplicates: on a well-formed table with
fewer than `MAXSIZE` entries, `table_insert(t, k, v)` adds a new entry in the first free
slot (`first_free_pos` grows by one) when no stored key compares equal to `k`; when a
stored key compares equal to `k` it overwrites the lowest-index matching entry in place,
`first_free_pos` is unchanged and no entry is added. -/
theorem insert_adds_iff_absent (t : table K V) (k : K) (v : Option V)
    (hwf : well_formed t) (hroom : t.first_free_pos < MAXSIZE) :
    (¬ key_stored t k → ∃ t', table_insert t k v = .ok t' ∧
        t'.first_free_pos = t.first_free_pos + 1 ∧
        t'.entries.values t.first_free_pos = some ⟨k, v⟩ ∧
        ∀ j, j ≠ t.first_free_pos → t'.entries.values j = t.entries.values j) ∧
    (key_stored t k → ∃ i e t', first_match t k i e ∧ table_insert t k v = .ok t' ∧
        t'.first_free_pos = t.first_free_pos ∧
        t'.entries.values i = some ⟨k, v⟩ ∧
        ∀ j, j ≠ i → t'.entries.values j = t.entries.values j) := by
  constructor
  · intro habs
    refine ⟨_, table_insert_of_absent hwf habs hroom v, rfl, by simp [appended], ?_⟩
    intro j hj
    simp [appended, Function.update_noteq hj]
  · intro hst
    obtain ⟨i, e, hfm⟩ := exists_first_match hst
    refine ⟨i, e, _, hfm, table_insert_of_first_match hwf hfm v, by simp [entry_assign],
      by simp [entry_assign], ?_⟩
    intro j hj
    simp [entry_assign, Function.update_noteq hj]

/-- The two cases of `insert_adds_iff_absent` on the two-entry table: key `9` is
appended, key `5` is overwritten. -/
theorem insert_adds_iff_absent_witness :
    well_formed demo_table ∧ demo_table.first_free_pos < MAXSIZE ∧
      (∃ t', table_insert demo_table 9 (some 90) = .ok t' ∧ t'.first_free_pos = 3) ∧
      (∃ t', table_insert demo_table 5 (some 90) = .ok t' ∧ t'.first_free_pos = 2) := by
  have h := insert_adds_iff_absent demo_table 9 (some 90) well_formed_demo_table (by decide)
  have h' := insert_adds_iff_absent demo_table 5 (some 90) well_formed_demo_table (by decide)
  refine ⟨well_formed_demo_table, by decide, ?_, ?_⟩
  · obtain ⟨t', h1, h2, -⟩ := h.1 demo_table_absent_nine
    exact ⟨t', h1, h2⟩
  · obtain ⟨i, e, t', -, h1, h2, -⟩ :=
      h'.2 ⟨0, _, demo_table_first_match_five.1, by decide⟩
    exact ⟨t', h1, h2⟩

/-- C3, the code at the failing input. The table at capacity with the keys
`0 .. MAXSIZE - 1` is reachable from `table_empty` by `MAXSIZE` inserts, none into a full
table, under the equivalence `cmp_int`. Removing the absent key `MAXSIZE` from it, the
loop condition of `table_remove` reads slot `MAXSIZE`, outside the array, before it
tests `i < MAXSIZE`; and `table_lookup` of that key, whose loop has no bound at all,
reads the same slot instead of returning `NULL`. -/
theorem remove_at_capacity_faults :
    cmp_equivalence cmp_int ∧ reachable cmp_int false false full_table ∧
      ¬ key_stored full_table 80000 ∧
      table_remove full_table 80000 = .error (.out_of_bounds MAXSIZE) ∧
      table_lookup full_table 80000 = .error (.out_of_bounds MAXSIZE) :=
  ⟨cmp_int_equivalence, reachable_filled (le_refl _), filled_absent 80000,
    table_remove_absent_full (well_formed_filled (le_refl _)) (filled_absent 80000) rfl,
    table_lookup_absent_full (well_formed_filled (le_refl _)) (filled_absent 80000) rfl⟩

/-- The part of the contiguity invariant that the code keeps: `table_empty()`
satisfies the predicate "slot `i` is occupied if and only if `0 <= i < first_free_pos`,
with `first_free_pos` a count of at most `MAXSIZE`"; `table_insert` on a table with
fewer than `MAXSIZE` entries completes and preserves it; every table `table_remove`
returns satisfies it again, and `table_remove` returns a table whenever a slot is free
or the key is stored. -/
theorem contiguity_invariant :
    (∀ (cmp : K → K → Int) (kk vk : Bool), well_formed (table_empty cmp kk vk : table K V)) ∧
    (∀ (t : table K V) (k : K) (v : Option V), well_formed t →
      t.first_free_pos < MAXSIZE → ∃ t', table_insert t k v = .ok t' ∧ well_formed t') ∧
    (∀ (t t' : table K V) (k : K), well_formed t → table_remove t k = .ok t' →
      well_formed t') ∧
    (∀ (t : table K V) (k : K), well_formed t →
      t.first_free_pos < MAXSIZE ∨ key_stored t k →
      ∃ t', table_remove t k = .ok t' ∧ well_formed t') := by
  refine ⟨well_formed_table_empty, ?_, ?_, ?_⟩
  · intro t k v hwf hroom
    by_cases hst : key_stored t k
    · obtain ⟨i, e, hfm⟩ := exists_first_match hst
      exact ⟨_, table_insert_of_first_match hwf hfm v, well_formed_entry_assign hwf hfm.1 k v⟩
    · exact ⟨_, table_insert_of_absent hwf hst hroom v, well_formed_appended hwf hroom k v⟩
  · intro t t' k hwf hrem
    exact table_remove_well_formed hwf hrem
  · intro t k hwf h
    by_cases hst : key_stored t k
    · obtain ⟨i, e, hfm⟩ := exists_first_match hst
      obtain ⟨last, -, hrem⟩ := table_remove_of_first_match hwf hfm
      exact ⟨_, hrem, well_formed_removed hwf hfm.1⟩
    · exact ⟨t, table_remove_of_absent hwf hst (h.resolve_right hst), hwf⟩

/-- The invariant on the two-entry table: an insert and a remove of the stored key `5`
both keep it well formed. -/
theorem contiguity_invariant_witness :
    well_formed demo_table ∧ demo_table.first_free_pos < MAXSIZE ∧
      (∃ t', table_insert demo_table 5 (some 1) = .ok t' ∧ well_formed t') ∧
      (∃ t', table_remove demo_table 5 = .ok t' ∧ well_formed t') :=
  ⟨well_formed_demo_table, by decide,
    (contiguity_invariant (K := Int) (V := Int)).2.1 demo_table 5 (some 1)
      well_formed_demo_table (by decide),
    (contiguity_invariant (K := Int) (V := Int)).2.2.2 demo_table 5
      well_formed_demo_table (Or.inl (by decide))⟩

/-- C7, the code at the failing input. The table at capacity with the keys
`0 .. MAXSIZE - 1` satisfies the contiguity predicate and does not store the key
`MAXSIZE`. `table_remove` of that key does not preserve the predicate: its loop
condition reads slot `MAXSIZE`, outside the array, before it tests `i < MAXSIZE`, so
the call leaves defined behaviour and returns no table at all. -/
theorem contiguity_remove_at_capacity :
    well_formed full_table ∧ full_table.first_free_pos = MAXSIZE ∧
      ¬ key_stored full_table 80000 ∧
      table_remove full_table 80000 = .error (.out_of_bounds MAXSIZE) ∧
      ¬ ∃ t', table_remove full_table 80000 = .ok t' ∧ well_formed t' := by
  have hwf : well_formed full_table := well_formed_filled (le_refl _)
  have hrem : table_remove full_table 80000 = .error (.out_of_bounds MAXSIZE) :=
    table_remove_absent_full hwf (filled_absent 80000) rfl
  refine ⟨hwf, rfl, filled_absent 80000, hrem, ?_⟩
  rintro ⟨t', h, -⟩
  rw [hrem] at h
  cases h

/-- C9. `table_choose_key` deconstructs the table: on a non-empty table reachable from
`table_empty()` by inserts and removes (never inserting into a full table,
`key_cmp_func` an equivalence relation), `table_choose_key(t)` returns the key stored in
the occupied slot `first_free_pos - 1`, `table_remove` of that key completes and lowers
`first_free_pos`, the number of stored entries, by exactly one, and repeating the step
`first_free_pos` times ends with `table_is_empty(t)` true. -/
theorem choose_key_deconstructs (cmp : K → K → Int) (kk vk : Bool) (t : table K V)
    (hr : reachable cmp kk vk t) (heq : cmp_equivalence cmp)
    (hne : table_is_empty t = false) :
    (∃ e t', holds t (t.first_free_pos - 1) e ∧ table_choose_key t = .ok e.key ∧
      table_remove t e.key = .ok t' ∧ reachable cmp kk vk t' ∧
      t'.first_free_pos = t.first_free_pos - 1) ∧
    (∃ t'', deconstruct t.first_free_pos.toNat t = .ok t'' ∧ table_is_empty t'' = true) := by
  have hwf := reachable_well_formed hr
  have hrefl : ∀ a, t.key_cmp_func a a = 0 := by
    rw [reachable_key_cmp_func hr]
    exact heq.1
  have h0 := hwf.2.2.1
  have hpos : 0 < t.first_free_pos := by
    have : t.first_free_pos ≠ 0 := by simpa [table_is_empty] using hne
    omega
  constructor
  · obtain ⟨e, t', hh, hch, hrem, -, -, hffp⟩ := choose_key_remove_step hwf hrefl hpos
    exact ⟨e, t', hh, hch, hrem, reachable.remove e.key hr hrem, hffp⟩
  · exact deconstruct_empties _ t hwf hrefl (Int.toNat_of_nonneg h0).symm

/-- Witness for C9 on the reachable table with the two pairs `(0, 0)` and `(1, 1)`. -/
theorem choose_key_deconstructs_witness :
    reachable cmp_int false false (filled 2) ∧ cmp_equivalence cmp_int ∧
      table_is_empty (filled 2) = false ∧
      ∃ t'', deconstruct 2 (filled 2) = .ok t'' ∧ table_is_empty t'' = true :=
  ⟨reachable_filled (by decide), cmp_int_equivalence, by decide,
    (choose_key_deconstructs cmp_int false false (filled 2) (reachable_filled (by decide))
      cmp_int_equivalence (by decide)).2⟩

/-- C10. `table_is_empty` is exact: on a table reachable from `table_empty()` by inserts
and removes that never insert into a full table, `table_is_empty(t)` is true if and only
if no slot holds a key/value pair; it is true for `table_empty()`, and it is false for
the table any `table_insert` returns, which `table_insert` does whenever a slot is
free. -/
theorem is_empty_exact (cmp : K → K → Int) (kk vk : Bool) (t : table K V)
    (hr : reachable cmp kk vk t) :
    (table_is_empty t = true ↔ ∀ i e, ¬ holds t i e) ∧
    table_is_empty (table_empty cmp kk vk : table K V) = true ∧
    (∀ k v t', table_insert t k v = .ok t' → table_is_empty t' = false) ∧
    (∀ k v, t.first_free_pos < MAXSIZE →
      ∃ t', table_insert t k v = .ok t' ∧ table_is_empty t' = false) := by
  have hwf := reachable_well_formed hr
  have hnonempty : ∀ {k : K} {v : Option V} {t' : table K V},
      table_insert t k v = .ok t' → table_is_empty t' = false := by
    intro k v t' hins
    have h0 := hwf.2.2.1
    rcases table_insert_cases hwf hins with ⟨i, e, hfm, rfl⟩ | ⟨-, -, rfl⟩
    · have := holds_lt_first_free hwf hfm.1
      have := hfm.1.1
      have hne : t.first_free_pos ≠ 0 := by omega
      simpa [table_is_empty, entry_assign] using hne
    · have hne : t.first_free_pos + 1 ≠ 0 := by omega
      simpa [table_is_empty, appended] using hne
  refine ⟨?_, rfl, fun k v t' h => hnonempty h, ?_⟩
  · constructor
    · intro hem i e he
      have := holds_lt_first_free hwf he
      have := he.1
      have : t.first_free_pos = 0 := by simpa [table_is_empty] using hem
      omega
    · intro hno
      by_contra hne
      have hne' : t.first_free_pos ≠ 0 := by simpa [table_is_empty] using hne
      have h0 := hwf.2.2.1
      obtain ⟨e, he⟩ := well_formed_occupied hwf (i := 0) (le_refl _) (by omega)
      exact hno 0 e ⟨le_refl _, by decide, he⟩
  · intro k v hroom
    by_cases hst : key_stored t k
    · obtain ⟨i, e, hfm⟩ := exists_first_match hst
      have hins := table_insert_of_first_match hwf hfm v
      exact ⟨_, hins, hnonempty hins⟩
    · have hins := table_insert_of_absent hwf hst hroom v
      exact ⟨_, hins, hnonempty hins⟩

/-- Witness for C10 on the reachable table with the two pairs `(0, 0)` and `(1, 1)`. -/
theorem is_empty_exact_witness :
    reachable cmp_int false false (filled 2) ∧
      (table_is_empty (filled 2) = true ↔ ∀ i e, ¬ holds (filled 2) i e) ∧
      table_is_empty (table_empty cmp_int false false : table Int Int) = true :=
  ⟨reachable_filled (by decide),
    (is_empty_exact cmp_int false false (filled 2) (reachable_filled (by decide))).1,
    (is_empty_exact cmp_int false false (filled 2) (reachable_filled (by decide))).2.1⟩

/-! ## Lookup of another key across an update -/

theorem filled_absent_ge (n : Nat) (m : Int) (h : (n : Int) ≤ m) :
    ¬ key_stored (filled n) m := by
  rintro ⟨i, e, ⟨-, -, hv⟩, hc⟩
  simp only [filled] at hv
  split at hv
  · rename_i hi
    injection hv with hv
    subst hv
    have hc' : i - m = 0 := hc
    omega
  · cases hv

/-- In a well-formed table `table_lookup` returns a value whenever a slot is free or
the key is stored. -/
theorem table_lookup_total {t : table K V} (hwf : well_formed t) {k : K}
    (h : t.first_free_pos < MAXSIZE ∨ key_stored t k) : ∃ r, table_lookup t k = .ok r := by
  by_cases hst : key_stored t k
  · obtain ⟨i, e, hfm⟩ := exists_first_match hst
    exact ⟨_, table_lookup_of_first_match hwf hfm⟩
  · exact ⟨_, table_lookup_of_absent hwf hst (h.resolve_right hst)⟩

/-- Keys that compare equal to the same stored key compare equal to each other. -/
theorem cmp_of_common {cmp : K → K → Int} (heq : cmp_equivalence cmp) {a k k' : K}
    (h1 : cmp a k = 0) (h2 : cmp a k' = 0) : cmp k k' = 0 :=
  heq.2.2 _ _ _ (heq.2.1 _ _ h1) h2

/-- What `table_insert` does to the lookup of a key `k'` that does not compare equal to
the inserted key, whenever the table is not filled up by the insert or one of the two
keys is stored. -/
theorem table_insert_frame {t : table K V} (hwf : well_formed t)
    (heq : cmp_equivalence t.key_cmp_func) {k k' : K} (hne : t.key_cmp_func k k' ≠ 0)
    (hroom : t.first_free_pos < MAXSIZE)
    (hc : t.first_free_pos + 1 < MAXSIZE ∨ key_stored t k ∨ key_stored t k')
    (v : Option V) :
    ∃ t', table_insert t k v = .ok t' ∧
      ∃ r, table_lookup t k' = .ok r ∧ table_lookup t' k' = .ok r := by
  by_cases hst : key_stored t k
  · obtain ⟨i, e, hfm⟩ := exists_first_match hst
    have hwf' : well_formed (entry_assign (kill_pair t e) i k v) :=
      well_formed_entry_assign hwf hfm.1 k v
    refine ⟨_, table_insert_of_first_match hwf hfm v, ?_⟩
    by_cases hst' : key_stored t k'
    · obtain ⟨j, e', hfm'⟩ := exists_first_match hst'
      have hji : j ≠ i := by
        rintro rfl
        have : e' = e := by
          have h1 := hfm'.1.2.2
          rw [hfm.1.2.2] at h1
          injection h1 with h1
          exact h1.symm
        subst this
        exact hne (cmp_of_common heq hfm.2.1 hfm'.2.1)
      refine ⟨_, table_lookup_of_first_match hwf hfm', ?_⟩
      apply table_lookup_of_first_match hwf'
      refine ⟨?_, by simpa [entry_assign] using hfm'.2.1, ?_⟩
      · rw [holds_entry_assign_other hji, holds_kill_pair]
        exact hfm'.1
      · intro j2 x hx hlt
        by_cases hj2 : j2 = i
        · subst hj2
          have hxk : x = ⟨k, v⟩ := by
            have := hx.2.2
            simp [entry_assign] at this
            exact this.symm
          subst hxk
          simpa [entry_assign] using hne
        · rw [holds_entry_assign_other hj2, holds_kill_pair] at hx
          simpa [entry_assign] using hfm'.2.2 j2 x hx hlt
    · refine ⟨_, table_lookup_of_absent hwf hst' hroom, ?_⟩
      apply table_lookup_of_absent hwf'
      · rintro ⟨j, x, hx, hcx⟩
        have hcx' : t.key_cmp_func x.key k' = 0 := by simpa [entry_assign] using hcx
        by_cases hj : j = i
        · subst hj
          have hxk : x = ⟨k, v⟩ := by
            have := hx.2.2
            simp [entry_assign] at this
            exact this.symm
          subst hxk
          exact hne hcx'
        · rw [holds_entry_assign_other hj, holds_kill_pair] at hx
          exact hst' ⟨j, x, hx, hcx'⟩
      · simpa [entry_assign] using hroom
  · have hwf' := well_formed_appended hwf hroom k v
    have hold : ∀ {j : Int} {x : table_entry K V}, j ≠ t.first_free_pos →
        (holds (appended t k v) j x ↔ holds t j x) := by
      intro j x hj
      simp [holds, appended, Function.update_noteq hj]
    have hnew : ∀ {x : table_entry K V}, holds (appended t k v) t.first_free_pos x →
        x = ⟨k, v⟩ := by
      intro x hx
      have := hx.2.2
      simp [appended] at this
      exact this.symm
    refine ⟨_, table_insert_of_absent hwf hst hroom v, ?_⟩
    by_cases hst' : key_stored t k'
    · obtain ⟨j, e', hfm'⟩ := exists_first_match hst'
      have hj := holds_lt_first_free hwf hfm'.1
      refine ⟨_, table_lookup_of_first_match hwf hfm', ?_⟩
      apply table_lookup_of_first_match hwf'
      refine ⟨(hold (by omega)).2 hfm'.1, hfm'.2.1, ?_⟩
      intro j2 x hx hlt
      exact hfm'.2.2 j2 x ((hold (by omega)).1 hx) hlt
    · have hroom2 : t.first_free_pos + 1 < MAXSIZE := by
        rcases hc with h | h | h
        · exact h
        · exact absurd h hst
        · exact absurd h hst'
      refine ⟨_, table_lookup_of_absent hwf hst' hroom, ?_⟩
      apply table_lookup_of_absent hwf'
      · rintro ⟨j, x, hx, hcx⟩
        have hcx' : t.key_cmp_func x.key k' = 0 := hcx
        by_cases hj : j = t.first_free_pos
        · subst hj
          have hxk := hnew hx
          subst hxk
          exact hne hcx'
        · exact hst' ⟨j, x, (hold hj).1 hx, hcx'⟩
      · simpa [appended] using hroom2

/-- Every entry of the table before a removal, other than the one removed, is an entry
of the table after it. -/
theorem holds_removed_of_holds {t : table K V} (hwf : well_formed t) {i : Int}
    {e last : table_entry K V} (he : holds t i e)
    (hlast : t.entries.values (t.first_free_pos - 1) = some last) {j : Int}
    {x : table_entry K V} (hx : holds t j x) (hji : j ≠ i) :
    ∃ j', holds (removed t i e last) j' x := by
  have hi := holds_lt_first_free hwf he
  have hj := holds_lt_first_free hwf hx
  by_cases hjl : j = t.first_free_pos - 1
  · subst hjl
    have hxl : x = last := by
      have h1 := hx.2.2
      rw [hlast] at h1
      injection h1 with h1
      exact h1.symm
    subst hxl
    refine ⟨i, he.1, he.2.1, ?_⟩
    simp only [removed]
    rw [Function.update_noteq (fun h => hji h.symm), Function.update_same]
  · refine ⟨j, hx.1, hx.2.1, ?_⟩
    simp only [removed]
    rw [Function.update_noteq hjl, Function.update_noteq hji]
    exact hx.2.2

/-- What `table_remove` does to the lookup of a key `k'` that does not compare equal to
the removed key, in a table with unique keys, whenever a slot is free or both keys are
stored. -/
theorem table_remove_frame {t : table K V} (hwf : well_formed t)
    (heq : cmp_equivalence t.key_cmp_func) (hu : unique_keys t) {k k' : K}
    (hne : t.key_cmp_func k k' ≠ 0)
    (hc : t.first_free_pos < MAXSIZE ∨ (key_stored t k ∧ key_stored t k')) :
    ∃ t', table_remove t k = .ok t' ∧
      ∃ r, table_lookup t k' = .ok r ∧ table_lookup t' k' = .ok r := by
  by_cases hst : key_stored t k
  · obtain ⟨i, e, hfm⟩ := exists_first_match hst
    obtain ⟨last, hlast, hrem⟩ := table_remove_of_first_match hwf hfm
    have hwf' : well_formed (removed t i e last) := well_formed_removed hwf hfm.1
    have hroom' : (removed t i e last).first_free_pos < MAXSIZE := by
      have := hwf.2.2.2.1
      simp only [removed]
      omega
    refine ⟨_, hrem, ?_⟩
    by_cases hst' : key_stored t k'
    · obtain ⟨j, e', hfm'⟩ := exists_first_match hst'
      have hji : j ≠ i := by
        rintro rfl
        have : e' = e := by
          have h1 := hfm'.1.2.2
          rw [hfm.1.2.2] at h1
          injection h1 with h1
          exact h1.symm
        subst this
        exact hne (cmp_of_common heq hfm.2.1 hfm'.2.1)
      refine ⟨_, table_lookup_of_first_match hwf hfm', ?_⟩
      obtain ⟨j', hj'⟩ := holds_removed_of_holds hwf hfm.1 hlast hfm'.1 hji
      have hst2 : key_stored (removed t i e last) k' :=
        ⟨j', e', hj', by simpa [removed] using hfm'.2.1⟩
      obtain ⟨j1, e1, hfm1⟩ := exists_first_match hst2
      rw [table_lookup_of_first_match hwf' hfm1]
      obtain ⟨j2, -, hj2, -⟩ := holds_removed hwf hfm.1 hlast hfm1.1
      have hc1 : t.key_cmp_func e1.key k' = 0 := by simpa [removed] using hfm1.2.1
      have hsame : j2 = j :=
        hu j2 j e1 e' hj2 hfm'.1 (heq.2.2 _ _ _ hc1 (heq.2.1 _ _ hfm'.2.1))
      subst hsame
      have : e1 = e' := by
        have h1 := hj2.2.2
        rw [hfm'.1.2.2] at h1
        injection h1 with h1
        exact h1.symm
      rw [this]
    · have hroom : t.first_free_pos < MAXSIZE := by
        rcases hc with h | h
        · exact h
        · exact absurd h.2 hst'
      refine ⟨_, table_lookup_of_absent hwf hst' hroom, ?_⟩
      apply table_lookup_of_absent hwf' _ hroom'
      rintro ⟨j, x, hx, hcx⟩
      obtain ⟨j2, -, hj2, -⟩ := holds_removed hwf hfm.1 hlast hx
      exact hst' ⟨j2, x, hj2, by simpa [removed] using hcx⟩
  · have hroom : t.first_free_pos < MAXSIZE := by
      rcases hc with h | h
      · exact h
      · exact absurd h.1 hst
    obtain ⟨r, hr⟩ := table_lookup_total (k := k') hwf (Or.inl hroom)
    exact ⟨t, table_remove_of_absent hwf hst hroom, r, hr, hr⟩

/-- C13. Compaction on removal: on a well-formed table with `n = first_free_pos` entries
whose lowest-index entry matching `k` is in slot `i`, `table_remove(t, k)` completes,
leaves slot `i` holding the key and value that were in slot `n - 1`, makes slot `n - 1`
empty (so for `i = n - 1` the entry is simply dropped), leaves every other slot
unchanged and sets `first_free_pos` to `n - 1`; the result is well formed, so exactly
one entry is removed. -/
theorem remove_compacts (t : table K V) (k : K) (i : Int) (e : table_entry K V)
    (hwf : well_formed t) (hfm : first_match t k i e) :
    ∃ last t', t.entries.values (t.first_free_pos - 1) = some last ∧
      table_remove t k = .ok t' ∧ well_formed t' ∧
      t'.first_free_pos = t.first_free_pos - 1 ∧
      t'.entries.values (t.first_free_pos - 1) = none ∧
      (i ≠ t.first_free_pos - 1 → t'.entries.values i = some last) ∧
      (∀ j, j ≠ i → j ≠ t.first_free_pos - 1 →
        t'.entries.values j = t.entries.values j) := by
  obtain ⟨last, hlast, hrem⟩ := table_remove_of_first_match hwf hfm
  refine ⟨last, _, hlast, hrem, well_formed_removed hwf hfm.1, rfl, ?_, ?_, ?_⟩
  · simp [removed]
  · intro hi
    simp only [removed]
    rw [Function.update_noteq hi, Function.update_same]
  · intro j hji hjl
    simp only [removed]
    rw [Function.update_noteq hjl, Function.update_noteq hji]

/-- Witness for C13: removing key `5`, stored in slot 0 of the two-entry table, moves
the pair `(7, 70)` from slot 1 into slot 0. -/
theorem remove_compacts_witness :
    well_formed demo_table ∧ first_match demo_table 5 0 ⟨5, some 50⟩ ∧
      ∃ t', table_remove demo_table 5 = .ok t' ∧ t'.first_free_pos = 1 ∧
        t'.entries.values 0 = some ⟨7, some 70⟩ ∧ t'.entries.values 1 = none := by
  obtain ⟨last, t', hlast, hrem, -, hffp, hnone, hmove, -⟩ :=
    remove_compacts demo_table 5 0 ⟨5, some 50⟩ well_formed_demo_table
      demo_table_first_match_five
  have hl : last = ⟨7, some 70⟩ := by
    have h : demo_table.entries.values (demo_table.first_free_pos - 1)
        = some ⟨7, some 70⟩ := rfl
    rw [hlast] at h
    injection h
  subst hl
  exact ⟨well_formed_demo_table, demo_table_first_match_five, t', hrem, hffp,
    hmove (by decide), hnone⟩

/-- C14. Key-uniqueness invariant: if `key_cmp_func(a, b) == 0` is an equivalence
relation, then in every table reachable from `table_empty()` by `table_insert` and
`table_remove` calls that never insert into a full table, no two distinct occupied
slots hold keys that compare equal. -/
theorem key_uniqueness_invariant (cmp : K → K → Int) (kk vk : Bool) (t : table K V)
    (heq : cmp_equivalence cmp) (hr : reachable cmp kk vk t) :
    ∀ i j e e', holds t i e → holds t j e' → i ≠ j → cmp e.key e'.key ≠ 0 := by
  intro i j e e' hi hj hij hc
  rw [← reachable_key_cmp_func hr] at hc
  exact hij (reachable_unique_keys heq hr i j e e' hi hj hc)

/-- Witness for C14 on the reachable table with the two pairs `(0, 0)` and `(1, 1)`. -/
theorem key_uniqueness_invariant_witness :
    cmp_equivalence cmp_int ∧ reachable cmp_int false false (filled 2) ∧
      ∀ i j e e', holds (filled 2) i e → holds (filled 2) j e' → i ≠ j →
        cmp_int e.key e'.key ≠ 0 :=
  ⟨cmp_int_equivalence, reachable_filled (by decide),
    key_uniqueness_invariant cmp_int false false (filled 2) cmp_int_equivalence
      (reachable_filled (by decide))⟩

/-- C15, the code at the failing input. The table at capacity with the keys
`0 .. MAXSIZE - 1` is reachable, `cmp_int` is an equivalence and the keys `0` and
`MAXSIZE` do not compare equal. Before the removal `table_lookup` of the absent key
`MAXSIZE` reads slot `MAXSIZE`, outside the array, and returns no value; after
`table_remove` of key `0` it returns `NULL`. With the roles exchanged, `table_remove`
of the absent key `MAXSIZE` itself reads slot `MAXSIZE`. -/
theorem remove_frame_at_capacity :
    reachable cmp_int false false full_table ∧ cmp_equivalence cmp_int ∧
      cmp_int 0 80000 ≠ 0 ∧
      table_lookup full_table 80000 = .error (.out_of_bounds MAXSIZE) ∧
      (∃ t', table_remove full_table 0 = .ok t' ∧ table_lookup t' 80000 = .ok none) ∧
      table_remove full_table 80000 = .error (.out_of_bounds MAXSIZE) := by
  have hwf : well_formed full_table := well_formed_filled (le_refl _)
  have habs : ¬ key_stored full_table 80000 := filled_absent 80000
  have hfm : first_match full_table 0 0 ⟨0, some 0⟩ := by
    refine ⟨⟨le_refl _, by decide, rfl⟩, rfl, ?_⟩
    intro j x hx hlt
    have := hx.1
    omega
  refine ⟨reachable_filled (le_refl _), cmp_int_equivalence, by decide,
    table_lookup_absent_full hwf habs rfl, ?_, table_remove_absent_full hwf habs rfl⟩
  obtain ⟨last, hlast, hrem⟩ := table_remove_of_first_match hwf hfm
  refine ⟨_, hrem, ?_⟩
  apply table_lookup_of_absent (well_formed_removed hwf hfm.1)
  · rintro ⟨j, x, hx, hcx⟩
    obtain ⟨j2, -, hj2, -⟩ := holds_removed hwf hfm.1 hlast hx
    exact habs ⟨j2, x, hj2, hcx⟩
  · show full_table.first_free_pos - 1 < MAXSIZE
    decide

/-- C16, the code at the failing input. The table with the `MAXSIZE - 1` keys
`0 .. MAXSIZE - 2` is well formed and has a free slot; `cmp_int` is an equivalence and
the keys `MAXSIZE - 1` and `MAXSIZE` do not compare equal. Before the insert,
`table_lookup` of the absent key `MAXSIZE` returns `NULL`; `table_insert` of key
`MAXSIZE - 1` fills the last slot; after it `table_lookup` of key `MAXSIZE` reads slot
`MAXSIZE`, outside the array, and returns no value. -/
theorem insert_frame_at_capacity :
    well_formed (filled 79999) ∧ (filled 79999).first_free_pos < MAXSIZE ∧
      cmp_equivalence cmp_int ∧ cmp_int 79999 80000 ≠ 0 ∧
      table_lookup (filled 79999) 80000 = .ok none ∧
      table_insert (filled 79999) 79999 (some 79999) = .ok full_table ∧
      table_lookup full_table 80000 = .error (.out_of_bounds MAXSIZE) :=
  ⟨well_formed_filled (by decide), by decide, cmp_int_equivalence, by decide,
    table_lookup_of_absent (well_formed_filled (by decide))
      (filled_absent_ge 79999 80000 (by decide)) (by decide),
    table_insert_filled (by decide),
    table_lookup_absent_full (well_formed_filled (le_refl _)) (filled_absent 80000) rfl⟩

/-- C17. In-bounds access below capacity: on a well-formed table holding fewer than
`MAXSIZE` entries, `table_insert`, `table_lookup`, `table_remove` and, on a non-empty
table, `table_choose_key` complete without a fault: no array index outside
`0 .. MAXSIZE - 1` is read or written and no `NULL` slot is dereferenced. -/
theorem in_bounds_below_capacity (t : table K V) (hwf : well_formed t)
    (hroom : t.first_free_pos < MAXSIZE) :
    (∀ k v, ∃ t', table_insert t k v = .ok t') ∧
    (∀ k, ∃ r, table_lookup t k = .ok r) ∧
    (∀ k, ∃ t', table_remove t k = .ok t') ∧
    (table_is_empty t = false → ∃ k, table_choose_key t = .ok k) := by
  refine ⟨?_, ?_, ?_, ?_⟩
  · intro k v
    by_cases hst : key_stored t k
    · obtain ⟨i, e, hfm⟩ := exists_first_match hst
      exact ⟨_, table_insert_of_first_match hwf hfm v⟩
    · exact ⟨_, table_insert_of_absent hwf hst hroom v⟩
  · intro k
    exact table_lookup_total hwf (Or.inl hroom)
  · intro k
    by_cases hst : key_stored t k
    · obtain ⟨i, e, hfm⟩ := exists_first_match hst
      obtain ⟨last, -, hrem⟩ := table_remove_of_first_match hwf hfm
      exact ⟨_, hrem⟩
    · exact ⟨_, table_remove_of_absent hwf hst hroom⟩
  · intro hne
    have h0 := hwf.2.2.1
    have hpos : 0 < t.first_free_pos := by
      have : t.first_free_pos ≠ 0 := by simpa [table_is_empty] using hne
      omega
    obtain ⟨e, he⟩ := well_formed_occupied hwf (i := t.first_free_pos - 1)
      (by omega) (by omega)
    have hb : t.entries.low ≤ t.first_free_pos - 1 ∧
        t.first_free_pos - 1 ≤ t.entries.high := by
      have := hwf.1
      have := hwf.2.1
      omega
    exact ⟨e.key, by simp [table_choose_key, array_1d_inspect_value, hb, he]⟩

/-- Witness for C17 on the two-entry table. -/
theorem in_bounds_below_capacity_witness :
    well_formed demo_table ∧ demo_table.first_free_pos < MAXSIZE ∧
      (∃ t', table_insert demo_table 9 (some 90) = .ok t') ∧
      (∃ r, table_lookup demo_table 9 = .ok r) ∧
      (∃ t', table_remove demo_table 9 = .ok t') ∧
      (∃ k, table_choose_key demo_table = .ok k) :=
  have h := in_bounds_below_capacity demo_table well_formed_demo_table (by decide)
  ⟨well_formed_demo_table, by decide, h.1 9 (some 90), h.2.1 9, h.2.2.1 9,
    h.2.2.2 (by decide)⟩

/-- C18, the code at the failing input. On the table at capacity with the keys
`0 .. MAXSIZE - 1`, whose array has the slots `0 .. MAXSIZE - 1`, the searches of
`table_lookup`, `table_insert` and `table_remove` for the absent key `MAXSIZE` all read
slot `MAXSIZE`. The loops of `table_lookup` and `table_insert` carry no bound; the loop
condition of `table_remove` reads the slot before it tests `i < MAXSIZE`, as its
iteration at index `MAXSIZE` shows. -/
theorem scan_at_capacity_reads_outside :
    well_formed full_table ∧ full_table.first_free_pos = MAXSIZE ∧
      full_table.entries.high = MAXSIZE - 1 ∧ ¬ key_stored full_table 80000 ∧
      table_lookup full_table 80000 = .error (.out_of_bounds MAXSIZE) ∧
      table_insert full_table 80000 (some 0) = .error (.out_of_bounds MAXSIZE) ∧
      table_remove full_table 80000 = .error (.out_of_bounds MAXSIZE) ∧
      table_remove_loop full_table 80000 1 MAXSIZE = .error (.out_of_bounds MAXSIZE) :=
  have hwf : well_formed full_table := well_formed_filled (le_refl _)
  ⟨hwf, rfl, rfl, filled_absent 80000,
    table_lookup_absent_full hwf (filled_absent 80000) rfl,
    table_insert_absent_full hwf (filled_absent 80000) rfl _,
    table_remove_absent_full hwf (filled_absent 80000) rfl, rfl⟩

end ArrayTable

namespace ArrayStack
variable {α : Type}

/-! ## The array stack -/

/-- A push on a full stack is ignored. -/
theorem stack_push_full (s : stack α) (v : α) (h : s.capacity ≤ s.count) :
    stack_push s v = s := by
  simp [stack_push, Nat.not_lt.mpr h]

theorem stack_push_room (s : stack α) (v : α) (h : s.count < s.capacity) :
    stack_push s v =
      { s with elements := Function.update s.elements s.count (some v),
               count := s.count + 1 } := by
  simp [stack_push, h]

/-- C11, as stated, fails on a stack without room. On the full stack holding `5, 4`
(capacity two) `stack_push(s, 7)` is ignored and `stack_top` still returns `4`; on the
stack holding `5` with one free slot, `stack_push(s, 1)` fills it, `stack_push(s, 2)`
is ignored, `stack_pop` removes the `1` and `stack_top` returns `5`, not `1`. -/
theorem stack_lifo_counterexample :
    stack_top (stack_push full_stack 7) = some 4 ∧
      stack_top (stack_push full_stack 7) ≠ some 7 ∧
      (stack_pop (stack_push (stack_push one_free_stack 1) 2)).bind stack_top = some 5 ∧
      (stack_pop (stack_push (stack_push one_free_stack 1) 2)).bind stack_top ≠ some 1 :=
  ⟨rfl, by decide, rfl, by decide⟩

/-- C11, amended. Stack LIFO order: for every stack `s` and values `a`, `b`, if `s` has
a free slot then `stack_top(stack_push(s, a))` is `a`, and if `s` has two free slots
then `stack_top(stack_pop(stack_push(stack_push(s, a), b)))` is `a`; the payload type
is arbitrary, so this covers the int-valued and the pointer-valued stack. -/
theorem stack_lifo (s : stack α) (a b : α) :
    (s.count < s.capacity → stack_top (stack_push s a) = some a) ∧
    (s.count + 2 ≤ s.capacity →
      (stack_pop (stack_push (stack_push s a) b)).bind stack_top = some a) := by
  constructor
  · intro h
    rw [stack_push_room s a h]
    simp [stack_top]
  · intro h
    have h1 : s.count < s.capacity := by omega
    rw [stack_push_room s a h1]
    rw [stack_push_room _ b (by simpa using (by omega : s.count + 1 < s.capacity))]
    simp [stack_pop, stack_top]

/-- Witness for the amended C11: the pushes of the tests on an empty stack of capacity
two, for the int stack and for a stack of nullable pointers. -/
theorem stack_lifo_witness :
    stack_top (stack_push (stack_empty 2 false : stack Int) 5) = some 5 ∧
      (stack_pop (stack_push (stack_push (stack_empty 2 false : stack Int) 5) 4)).bind
        stack_top = some 5 ∧
      (stack_pop (stack_push (stack_push (stack_empty 2 true : stack (Option Int))
        (some 10)) (some 20))).bind stack_top = some (some 10) :=
  ⟨(stack_lifo (stack_empty 2 false : stack Int) 5 4).1 (by decide),
    (stack_lifo (stack_empty 2 false : stack Int) 5 4).2 (by decide),
    (stack_lifo (stack_empty 2 true : stack (Option Int)) (some 10) (some 20)).2
      (by decide)⟩

/-- C12. Stack emptiness, for a stack of positive capacity:
`stack_is_empty(stack_empty())` is true, `stack_is_empty(stack_push(s, v))` is false
for every stack `s` and value `v`, and
`stack_is_empty(stack_pop(stack_push(stack_empty(), v)))` is true; a push on a stack
with a free slot adds exactly one element and a pop removes exactly one. -/
theorem stack_emptiness (capacity : Nat) (kill : Bool) (hcap : 0 < capacity) :
    stack_is_empty (stack_empty capacity kill : stack α) = true ∧
    (∀ (s : stack α) (v : α), s.capacity = capacity →
      stack_is_empty (stack_push s v) = false) ∧
    (∀ v : α, (stack_pop (stack_push (stack_empty capacity kill) v)).map stack_is_empty
      = some true) ∧
    (∀ (s : stack α) (v : α), s.count < s.capacity →
      (stack_push s v).count = s.count + 1) ∧
    (∀ s s' : stack α, stack_pop s = some s' → s'.count + 1 = s.count) := by
  refine ⟨rfl, ?_, ?_, ?_, ?_⟩
  · intro s v hs
    by_cases h : s.count < s.capacity
    · rw [stack_push_room s v h]
      simp [stack_is_empty]
    · rw [stack_push_full s v (Nat.not_lt.mp h)]
      have : s.count ≠ 0 := by omega
      simpa [stack_is_empty] using this
  · intro v
    have h : (stack_empty capacity kill : stack α).count
        < (stack_empty capacity kill : stack α).capacity := hcap
    rw [stack_push_room _ v h]
    simp [stack_pop, stack_is_empty, stack_empty]
  · intro s v h
    rw [stack_push_room s v h]
  · intro s s' h
    unfold stack_pop at h
    split at h
    · cases h
    · rename_i hne
      injection h with h
      subst h
      simp only
      omega

/-- Witness for C12: a stack of capacity two, as the tests need. -/
theorem stack_emptiness_witness :
    (0 : Nat) < 2 ∧
      stack_is_empty (stack_empty 2 false : stack Int) = true ∧
      stack_is_empty (stack_push (stack_empty 2 false : stack Int) 5) = false ∧
      (stack_pop (stack_push (stack_empty 2 false : stack Int) 4)).map stack_is_empty
        = some true :=
  have h := @stack_emptiness Int 2 false (by decide)
  ⟨by decide, h.1, h.2.1 _ 5 rfl, h.2.2.1 4⟩

end ArrayStack
